import Mathlib

/-!
Verification development for the metrical-scansion core (rantanplan,
src/rantanplan/core.py).  The Python functions are embedded shallowly:
syllable dictionaries become the `SyllableInfo` structure (optional keys are
`Option` fields), strings become `List Char` (syllable texts) or `String`
(part-of-speech labels and rhythm formats), and operations that can raise a
Python exception return `Option`, with `none` marking the raised exception.

The two static lookup tables (`SYLLABIFICATOR_FOREIGN_WORDS_DICT` and
`ALTERNATIVE_SYLLABIFICATION`) live in `rantanplan/alternative_syllabification.py`,
which is not part of the analysed core; they are modelled from the spec as
function parameters (word-keyed lookups), see `syllabify` below.
-/

set_option maxRecDepth 10000

/-- Python `str.lower` restricted to the characters that occur in the
analysed rules: ASCII letters plus the accented Spanish vowels and
consonants used by the tables of core.py. -/
def pyLower (c : Char) : Char :=
  if c = 'Á' then 'á' else if c = 'É' then 'é' else if c = 'Í' then 'í'
  else if c = 'Ó' then 'ó' else if c = 'Ú' then 'ú' else if c = 'Ü' then 'ü'
  else if c = 'Ñ' then 'ñ' else if c = 'Ä' then 'ä' else if c = 'Ë' then 'ë'
  else if c = 'Ï' then 'ï' else if c = 'Ö' then 'ö' else c.toLower

def pyLowerStr (s : List Char) : List Char :=
  s.map pyLower

/-- STRONG_VOWELS (core.py line 71). -/
def STRONG_VOWELS : List Char :=
  "aeoáéóÁÉÓAEO".toList

/-- WEAK_VOWELS (core.py line 72). -/
def WEAK_VOWELS : List Char :=
  "iuüíúIÍUÜÚ".toList

/-- LIAISON_FIRST_PART (core.py line 73). -/
def LIAISON_FIRST_PART : List Char :=
  "aeiouáéíóúAEIOUÁÉÍÓÚyY".toList

/-- LIAISON_SECOND_PART (core.py line 74). -/
def LIAISON_SECOND_PART : List Char :=
  "aeiouáéíóúAEIOUÁÉÍÓÚhyYH".toList

/-- STRESSED_UNACCENTED_MONOSYLLABLES (core.py lines 75-76). -/
def STRESSED_UNACCENTED_MONOSYLLABLES : List (List Char) :=
  ["yo", "vio", "dio", "fe", "sol", "ti", "un"].map String.toList

/-- UNSTRESSED_UNACCENTED_MONOSYLLABLES (core.py lines 77-81). -/
def UNSTRESSED_UNACCENTED_MONOSYLLABLES : List (List Char) :=
  ["de", "el", "la", "las", "le", "les", "lo", "los", "mas", "me", "mi",
   "nos", "os", "que", "se", "si", "su", "tan", "te", "tu", "tus",
   "oh"].map String.toList

/-- POSSESSIVE_PRON (core.py lines 85-86). -/
def POSSESSIVE_PRON : List (List Char) :=
  ["mío", "mía", "míos", "mías", "tuyo", "tuya", "tuyos", "tuyas", "suyo",
   "suya", "suyos", "suyas"].map String.toList

/-- POSSESSIVE_PRON_UNSTRESSED (core.py lines 88-89). -/
def POSSESSIVE_PRON_UNSTRESSED : List (List Char) :=
  ["nuestro", "nuestra", "nuestros", "nuestras", "vuestro", "vuestra",
   "vuestros", "vuestras"].map String.toList

/-- The two liaison kinds handled by the group reducer. -/
inductive LiaisonType where
  | synalepha
  | sinaeresis
deriving DecidableEq, Repr

/-- A syllable / phonological-group dictionary of core.py.  The Python code
represents these as dicts whose optional keys (`has_synalepha`,
`has_sinaeresis`, `is_word_end`, `synalepha_index`, `sinaeresis_index`) may be
absent; absence is modelled as `none`. -/
structure SyllableInfo where
  syllable : List Char
  is_stressed : Bool
  has_synalepha : Option Bool
  has_sinaeresis : Option Bool
  is_word_end : Option Bool
  synalepha_index : Option (List Nat)
  sinaeresis_index : Option (List Nat)
deriving DecidableEq, Repr

/-- A syllable dict as first created by `get_word_stress`: only the
`syllable` and `is_stressed` keys are present. -/
def mkSyllable (s : List Char) (st : Bool) : SyllableInfo :=
  ⟨s, st, none, none, none, none, none⟩

/-- Reading `syllable.get("has_" + liaison_type)`. -/
def liaisonProp (t : LiaisonType) (s : SyllableInfo) : Option Bool :=
  match t with
  | .synalepha => s.has_synalepha
  | .sinaeresis => s.has_sinaeresis

/-- Writing the `has_` key for a liaison type. -/
def setLiaisonProp (t : LiaisonType) (b : Bool) (s : SyllableInfo) : SyllableInfo :=
  match t with
  | .synalepha => { s with has_synalepha := some b }
  | .sinaeresis => { s with has_sinaeresis := some b }

/-- Reading `syllable.get(liaison_type + "_index", [])`. -/
def liaisonIndex (t : LiaisonType) (s : SyllableInfo) : Option (List Nat) :=
  match t with
  | .synalepha => s.synalepha_index
  | .sinaeresis => s.sinaeresis_index

/-- Python `int(syllable.get(prop, 0))` where the stored value is a bool. -/
def pyBoolGetInt (o : Option Bool) : Nat :=
  match o with
  | some true => 1
  | some false => 0
  | none => 0

/-- have_prosodic_liaison (core.py lines 143-159).  Both syllables are
non-empty whenever the Python code calls this (its indexing `[0]`/`[-1]`
would raise otherwise); on an empty syllable the model makes the failed
index test `false`. -/
def have_prosodic_liaison (first_syllable second_syllable : SyllableInfo) : Bool :=
  if (second_syllable.syllable.head?.any fun c => pyLower c = 'y')
      && decide (second_syllable.syllable.length > 1)
      && ((second_syllable.syllable.get? 1).any fun c =>
            "aeiouáéíúó".toList.contains (pyLower c)) then
    false
  else
    (first_syllable.syllable.getLast?.any fun c => LIAISON_FIRST_PART.contains c)
      && (second_syllable.syllable.head?.any fun c => LIAISON_SECOND_PART.contains c)

/-- get_stresses (core.py lines 277-294).  `stresses[::-1].index(True)`
raises `ValueError` when no group is stressed (also on the empty list);
that exception is the `none` result. -/
def get_stresses (phonological_groups : List SyllableInfo) : Option (List Bool) :=
  let stresses := phonological_groups.map (fun g => g.is_stressed)
  match stresses.reverse.findIdx? (fun s => s = true) with
  | none => none
  | some i =>
    if i = 0 then
      some (stresses ++ [false])
    else if 2 ≤ i then
      some stresses.dropLast
    else
      some stresses

/-- format_stress (core.py lines 297-319).  The `indexed_separator`
parameter defaults to "-" in the source; every caller in core.py leaves the
default in place. -/
def format_stress (stresses : List Bool) (rhythm_format : String)
    (indexed_separator : String) : String :=
  if rhythm_format = "indexed" then
    String.intercalate indexed_separator
      (stresses.enum.filterMap fun p =>
        if p.2 then some (Nat.repr (p.1 + 1)) else none)
  else if rhythm_format = "binary" then
    String.join (stresses.map fun s => if s then "1" else "0")
  else
    String.join (stresses.map fun s => if s then "+" else "-")

/-- The rhythm dictionary built by get_rhythmical_pattern. -/
structure Rhythm where
  stress : String
  type : String
  length : Nat
deriving DecidableEq, Repr

/-- get_rhythmical_pattern (core.py lines 260-274); `none` when
`get_stresses` raises. -/
def get_rhythmical_pattern (phonological_groups : List SyllableInfo)
    (rhythm_format : String) : Option Rhythm :=
  (get_stresses phonological_groups).map fun stresses =>
    { stress := format_stress stresses rhythm_format "-"
      type := rhythm_format
      length := stresses.length }

/-- The merged dictionary built at core.py lines 214-226 when syllable `s`
fuses with `next_syllable`.  Only the keys `syllable`, `is_stressed` and the
current liaison kind's index list are always present; the current kind's
`has_` flag and `is_word_end` are copied from `next_syllable` when present
there; every other optional key is absent from the new dict.  (The Python
`len(...) - 1` is total here because syllable texts in the pipeline are
never empty.) -/
def mergeLiaison (t : LiaisonType) (s next_syllable : SyllableInfo) : SyllableInfo :=
  let boundary_index : List Nat :=
    ((liaisonIndex t s).getD []) ++ [s.syllable.length - 1]
  match t with
  | .synalepha =>
    { syllable := s.syllable ++ next_syllable.syllable
      is_stressed := s.is_stressed || next_syllable.is_stressed
      has_synalepha := next_syllable.has_synalepha
      has_sinaeresis := none
      is_word_end := next_syllable.is_word_end
      synalepha_index := some boundary_index
      sinaeresis_index := none }
  | .sinaeresis =>
    { syllable := s.syllable ++ next_syllable.syllable
      is_stressed := s.is_stressed || next_syllable.is_stressed
      has_synalepha := none
      has_sinaeresis := next_syllable.has_sinaeresis
      is_word_end := next_syllable.is_word_end
      synalepha_index := none
      sinaeresis_index := some boundary_index }

/-- Value of the loop variable `next_syllable` after the body at core.py
lines 207-212 has run: it is reassigned to the following syllable whenever
one exists, and otherwise keeps its previous (stale) value. -/
def passNext (nextInLine ns : Option SyllableInfo) : Option SyllableInfo :=
  match nextInLine with
  | some n2 => some n2
  | none => ns

/-- The `breakage` flag of core.py lines 206-212: `false` at the final
index, otherwise the breakage function applied to the syllable and its
successor (`false` when no breakage function was given). -/
def passBreakage (t : LiaisonType)
    (bf : Option (LiaisonType → SyllableInfo → SyllableInfo → Bool))
    (s : SyllableInfo) (nextInLine : Option SyllableInfo) : Bool :=
  match nextInLine, bf with
  | some n2, some f => f t s n2
  | _, _ => false

/-- One full `for idx, syllable in enumerate(syllables)` scan of
get_phonological_groups (core.py lines 201-233).  The position list is
consumed in lockstep with the syllables (`ps.head?` is
`liaison_positions[idx]` and `ps.tail.head?` is `liaison_positions[idx + 1]`;
a failed lookup is Python's `IndexError`, returned as `none`).  `ns` is the
current value of the function-scoped variable `next_syllable` (`none` while
it is still unassigned; a merge that reads it unassigned is Python's
`NameError`, also `none`) and `sk` is `skip_next`; both persist across
scans, so their final values are returned alongside the reduced syllables
and the new `liaison_index` list. -/
def reducePass (t : LiaisonType)
    (bf : Option (LiaisonType → SyllableInfo → SyllableInfo → Bool)) :
    List SyllableInfo → List Nat → Option SyllableInfo → Bool →
      Option (List SyllableInfo × List Nat × Option SyllableInfo × Bool)
  | [], _, ns, sk => some ([], [], ns, sk)
  | s :: rest, ps, ns, sk =>
    if sk then
      reducePass t bf rest ps.tail ns false
    else
      match ps.head? with
      | none => none
      | some p =>
        cond (p != 0 && !passBreakage t bf s rest.head?)
          (match passNext rest.head? ns with
            | none => none
            | some partner =>
              match ps.tail.head? with
              | none => none
              | some p2 =>
                (reducePass t bf rest ps.tail (passNext rest.head? ns) true).map
                  (fun r => (mergeLiaison t s partner :: r.1, p2 :: r.2.1, r.2.2)))
          ((reducePass t bf rest ps.tail (passNext rest.head? ns) false).map
            (fun r => (s :: r.1, 0 :: r.2.1, r.2.2)))

/-- The `while sum(liaison_positions) > 0` loop of get_phonological_groups
(core.py lines 199-234), indexed by the number of scans it is still allowed
to run.  The state carried between scans is the syllable list, the position
list, and the function-scoped variables `next_syllable` and `skip_next`.
The outer `Option` is the budget: `none` means the budget was exhausted
with the loop still running, `some none` that a scan raised, and
`some (some _)` that the loop finished.  `reduceLoopFuel_enough` below
shows a budget of `syls.length + ps.sum + 1` scans is never exhausted, so
`reduceLoop` with that budget is the loop itself. -/
def reduceLoopFuel (t : LiaisonType)
    (bf : Option (LiaisonType → SyllableInfo → SyllableInfo → Bool)) :
    Nat → List SyllableInfo → List Nat → Option SyllableInfo → Bool →
      Option (Option (List SyllableInfo × List Nat))
  | 0, syls, ps, _, _ =>
    if 0 < ps.sum then none else some (some (syls, ps))
  | fuel + 1, syls, ps, ns, sk =>
    if 0 < ps.sum then
      match reducePass t bf syls ps ns sk with
      | none => some none
      | some (rs, ri, ns2, sk2) => reduceLoopFuel t bf fuel rs ri ns2 sk2
    else
      some (some (syls, ps))

/-- The loop itself: `reduceLoopFuel` run with the provably sufficient
budget.  The inner `Option` is a raised exception; the exhausted-budget
branch is unreachable by `reduceLoopFuel_enough`. -/
def reduceLoop (t : LiaisonType)
    (bf : Option (LiaisonType → SyllableInfo → SyllableInfo → Bool))
    (syls : List SyllableInfo) (ps : List Nat) (ns : Option SyllableInfo)
    (sk : Bool) : Option (List SyllableInfo × List Nat) :=
  match reduceLoopFuel t bf (syls.length + ps.sum + 1) syls ps ns sk with
  | none => none
  | some r => r

/-- clean_phonological_groups (core.py lines 240-257).  The position list is
read only for groups that carry the liaison key; `liaison_positions[idx]`
out of range is Python's `IndexError` (`none`). -/
def clean_phonological_groups (groups : List SyllableInfo)
    (liaison_positions : List Nat) (t : LiaisonType) :
    Option (List SyllableInfo) :=
  match groups with
  | [] => some []
  | g :: gs =>
    if (liaisonProp t g).isSome then
      match liaison_positions.head? with
      | none => none
      | some p =>
        (clean_phonological_groups gs liaison_positions.tail t).map
          (fun r => setLiaisonProp t (p != 0) g :: r)
    else
      (clean_phonological_groups gs liaison_positions.tail t).map
        (fun r => g :: r)

/-- get_phonological_groups (core.py lines 179-237).  `breakage_func = none`
and `liaison_positions = none` are the Python defaults; when no position
list is passed, one is read off the syllables' `has_<liaison_type>` flags.
`none` is a raised exception (IndexError or NameError inside the loop, or
IndexError inside the cleaning step). -/
def get_phonological_groups (word_syllables : List SyllableInfo)
    (liaison_type : LiaisonType)
    (breakage_func : Option (LiaisonType → SyllableInfo → SyllableInfo → Bool))
    (liaison_positions : Option (List Nat)) : Option (List SyllableInfo) :=
  let positions : List Nat :=
    match liaison_positions with
    | some ps => ps
    | none =>
      word_syllables.map fun s => pyBoolGetInt (liaisonProp liaison_type s)
  match reduceLoop liaison_type breakage_func word_syllables positions
      none false with
  | none => none
  | some (syls, ps) => clean_phonological_groups syls ps liaison_type

/-- Membership of (the lowercase form of) a character in a character class
given as a lowercase literal; this is how the `re.I` regexes of core.py
read their character classes. -/
def inCls (cls : String) (c : Char) : Bool :=
  cls.toList.contains (pyLower c)

/-- The class `[a-z]` under `re.I`. -/
def isAsciiAZ (c : Char) : Bool :=
  decide ('a' ≤ pyLower c) && decide (pyLower c ≤ 'z')

/-- The class `[a-záéíóúñ]` under `re.I` (alternatives 4, 6 and 11 of
`letter_clusters_re`). -/
def inSpanishLetter (c : Char) : Bool :=
  isAsciiAZ c || inCls "áéíóúñ" c

/-- The two-character consonant clusters shared by alternatives 4 and 5 of
`letter_clusters_re` (core.py lines 44-52): `[bcdfghjklmnñpqstvy][hlr]`,
`[bcdfghjklmnñpqrstvy][hr]` or `[bcdfghjklmnñpqrstvyz][h]`. -/
def isLiquidMuteCluster (c1 c2 : Char) : Bool :=
  (inCls "bcdfghjklmnñpqstvy" c1 && inCls "hlr" c2)
    || (inCls "bcdfghjklmnñpqrstvy" c1 && inCls "hr" c2)
    || (inCls "bcdfghjklmnñpqrstvyz" c1 && inCls "h" c2)

/-- Which alternative (1-11) of `letter_clusters_re` (core.py lines 37-64)
matches at the start of `w`; Python's regex alternation tries the
alternatives in order, so the first matching one wins. -/
def letterClustersAt (w : List Char) : Option Nat :=
  let c1 := w.head?
  let c2 := w.get? 1
  let c3 := w.get? 2
  let c4 := w.get? 3
  -- 1: weak vowels diphthong with h
  if c1.any (inCls "iuü") && c2.any (inCls "h") && c3.any (inCls "iuü") then
    some 1
  -- 2: open vowels
  else if c1.any (inCls "aáeéíoóú") && c2.any (inCls "h")
      && c3.any (inCls "iuü") then
    some 2
  -- 3: closed vowels
  else if c1.any (inCls "iuü") && c2.any (inCls "h")
      && c3.any (inCls "aáeéíoóú") then
    some 3
  -- 4: letter + liquid/mute cluster + vowel (adds hyphen)
  else if c1.any inSpanishLetter
      && (match c2, c3 with
          | some b, some c => isLiquidMuteCluster b c
          | _, _ => false)
      && c4.any (inCls "aáeéiíoóuúü") then
    some 4
  -- 5: liquid/mute cluster + vowel
  else if (match c1, c2 with
          | some b, some c => isLiquidMuteCluster b c
          | _, _ => false)
      && c3.any (inCls "aáeéiíoóuúü") then
    some 5
  -- 6: non-liquid consonant (adds hyphen)
  else if c1.any inSpanishLetter && c2.any (inCls "bcdfghjklmnñpqrstvxyz")
      && c3.any (inCls "aáeéiíoóuúüï") then
    some 6
  -- 7: vowel group (adds hyphen)
  else if c1.any (inCls "aáeéíoóú") && c2.any (inCls "aáeéíoóú") then
    some 7
  -- 8: umlaut u diphthongs
  else if c1.any (inCls "ü") && c2.any (inCls "iíaeo") then
    some 8
  -- 9: explicit hiatus with umlaut vowels, first part
  else if c1.any (inCls "aeiou") && c2.any (inCls "äëïöü") then
    some 9
  -- 10: explicit hiatus with umlaut vowels, second part
  else if c1.any (inCls "üäëïö") && c2.any isAsciiAZ then
    some 10
  -- 11: any char
  else if c1.any inSpanishLetter then
    some 11
  else
    none

/-- `letter_clusters_re.search`: the leftmost position with a match wins,
and at that position the first matching alternative; the result is
`m.lastindex`, the number of the alternative that matched. -/
def letterClustersSearch : List Char → Option Nat
  | [] => none
  | c :: rest =>
    match letterClustersAt (c :: rest) with
    | some k => some k
    | none => letterClustersSearch rest

/-- The `while len(word) > 0` scan of syllabify (core.py lines 404-411):
emit the leading character, then a hyphen unless the first match found in
the remaining string is one of the no-hyphen alternatives 5, 8 or 11 (or
there is no match at all), then continue on the tail. -/
def syllabifyLoop : List Char → List Char
  | [] => []
  | c :: rest =>
    c ::
      ((match letterClustersSearch (c :: rest) with
        | some k => if k = 5 || k = 8 || k = 11 then [] else ['-']
        | none => []) ++ syllabifyLoop rest)

/-- The index of the last position `i` such that `p1 w[i] && p2 w[i+1] &&
p3 w[i+2]`.  A regex of the shape `(.*X)(YZ.*)` with a greedy `.*` splits
at exactly this position. -/
def findLastTriple (p1 p2 p3 : Char → Bool) : List Char → Option Nat
  | c1 :: c2 :: c3 :: rest =>
    match (findLastTriple p1 p2 p3 (c2 :: c3 :: rest)).map (· + 1) with
    | some j => some j
    | none => if p1 c1 && p2 c2 && p3 c3 then some 0 else none
  | _ => none

/-- Rewrite for the presyllabification regexes of the shape
`(.*X)(YZ.*)` (core.py lines 104-111): `"-".join(match.groups())` inserts
one hyphen at the greedy split point; no match leaves the word unchanged. -/
def splitAfterLastTriple (p1 p2 p3 : Char → Bool) (w : List Char) : List Char :=
  match findLastTriple p1 p2 p3 w with
  | none => w
  | some i => w.take (i + 1) ++ '-' :: w.drop (i + 1)

/-- Rewrite for `^(sin)(C.*)` / `^(des)(C.*)` (core.py lines 96-101): if the
lowercased word starts with the three-letter prefix and the next character
is in the consonant class, insert a hyphen after the prefix. -/
def splitAfterWordStart (start : List Char) (cls : Char → Bool)
    (w : List Char) : List Char :=
  if pyLowerStr (w.take start.length) = start
      && (w.get? start.length).any cls then
    w.take start.length ++ '-' :: w.drop start.length
  else
    w

/-- apply_exception_rules (core.py lines 327-362): the six presyllabification
rewrites, applied in source order.  Each one both `match`es and `search`es;
since all six patterns start with `.*` or `^`, `match` succeeds exactly when
`search` does, so each rule is one conditional rewrite. -/
def apply_exception_rules (word : List Char) : List Char :=
  -- Vowel + w + vowel group
  let w1 := splitAfterLastTriple (inCls "aeiouáéíóú") (inCls "w")
    (inCls "aeiouáéíóú") word
  -- Consonant groups with exceptions for LL and DL
  let w2 := splitAfterLastTriple (inCls "hmnqsw") (inCls "hlr")
    (inCls "aeiouáéíóú") w1
  let w3 := splitAfterLastTriple (inCls "hlmnqsw") (inCls "hr")
    (inCls "aeiouáéíóú") w2
  let w4 := splitAfterLastTriple (inCls "d") (inCls "l")
    (inCls "aeiouáéíóú") w3
  -- Prefixes 'sin' and 'des' followed by a consonant
  let w5 := splitAfterWordStart "sin".toList (inCls "bcdfgjklmhnñpqrstvxyz") w4
  let w6 := splitAfterWordStart "des".toList (inCls "bcdfgjklmhnñpqrstvxyz") w5
  w6

/-- Candidate start positions for the `(?:(.*-)|^)` head of the three
post-syllabification regexes: the greedy `(.*-)` branch proposes the
position after each hyphen, longest first, and the `^` branch proposes
position 0 last. -/
def hyphenSplitCandidates (w : List Char) : List Nat :=
  (((List.range w.length).filter fun j => w.get? j = some '-').reverse.map
    (· + 1)) ++ [0]

/-- Group-2 match of HIATUS_FIRST_VOWEL_RE (core.py lines 115-117) at
position `i`: either `[äëïö]` (length 1) or `[^g]ü` (length 2), followed by
`[aeiouúáéíó]`; returns the length of group 2. -/
def hiatusTryAt (w : List Char) (i : Nat) : Option Nat :=
  if (w.get? i).any (inCls "äëïö") && (w.get? (i + 1)).any (inCls "aeiouúáéíó") then
    some 1
  else if (w.get? i).any (fun c => !(inCls "g" c))
      && (w.get? (i + 1)).any (inCls "ü")
      && (w.get? (i + 2)).any (inCls "aeiouúáéíó") then
    some 2
  else
    none

/-- One `re.sub(HIATUS_FIRST_VOWEL_RE, r'\1\2-\3', word)` pass: the single
match (it always extends to the end of the string) gets a hyphen inserted
after group 2; no match leaves the word unchanged. -/
def hiatusSub (w : List Char) : List Char :=
  match (hyphenSplitCandidates w).findSome?
      (fun i => (hiatusTryAt w i).map fun g2 => i + g2) with
  | none => w
  | some cut => w.take cut ++ '-' :: w.drop cut

/-- Match of CONSONANT_CLUSTER_RE (core.py lines 120-122) at position `i`:
`[mpgc]` `-` `[bcdfghjklmñnpqrstvwxyz][aeioáéíó]`; the hyphen to delete
sits at `i + 1`. -/
def clusterTryAt (w : List Char) (i : Nat) : Bool :=
  (w.get? i).any (inCls "mpgc") && (w.get? (i + 1)).any (inCls "-")
    && (w.get? (i + 2)).any (inCls "bcdfghjklmñnpqrstvwxyz")
    && (w.get? (i + 3)).any (inCls "aeioáéíó")

/-- One `re.sub(CONSONANT_CLUSTER_RE, r'\1\2\3', word)` pass: delete the
hyphen of the single match. -/
def clusterSub (w : List Char) : List Char :=
  match (hyphenSplitCandidates w).find? (clusterTryAt w) with
  | none => w
  | some i => w.take (i + 1) ++ w.drop (i + 2)

/-- Tail test shared by LOWERING_DIPHTHONGS_WITH_H (core.py lines 125-129):
at position `v`, `[aeo]` `-` `h[iu]` not followed by `[aeoiuíúáéó]`. -/
def loweringTailAt (w : List Char) (v : Nat) : Bool :=
  (w.get? v).any (inCls "aeo") && (w.get? (v + 1)).any (inCls "-")
    && (w.get? (v + 2)).any (inCls "h") && (w.get? (v + 3)).any (inCls "iu")
    && !((w.get? (v + 4)).any (inCls "aeoiuíúáéó"))

/-- Tail test of RAISING_DIPHTHONGS_WITH_H (core.py lines 132-136):
at position `v`, `[iu]` `-` `h[aeiouáéó]` not followed by `[aeoáéiuíú]`. -/
def raisingTailAt (w : List Char) (v : Nat) : Bool :=
  (w.get? v).any (inCls "iu") && (w.get? (v + 1)).any (inCls "-")
    && (w.get? (v + 2)).any (inCls "h")
    && (w.get? (v + 3)).any (inCls "aeiouáéó")
    && !((w.get? (v + 4)).any (inCls "aeoáéiuíú"))

/-- Backtracking of the optional `(?:qu|[bcdfghjklmñnpqrstvwxyz]+)?` piece
of the diphthong regexes, starting at base position `i0`: first `qu`, then
consonant runs longest first, then the empty option; returns the position
`v` after the accepted piece for which the tail test succeeds. -/
def diphthongMid (tail : List Char → Nat → Bool) (w : List Char) (i0 : Nat) :
    Option Nat :=
  let run := ((w.drop i0).takeWhile (inCls "bcdfghjklmñnpqrstvwxyz")).length
  if (w.get? i0).any (inCls "q") && (w.get? (i0 + 1)).any (inCls "u")
      && tail w (i0 + 2) then
    some (i0 + 2)
  else
    match ((List.range run).reverse.map (· + 1)).find?
        (fun r => tail w (i0 + r)) with
    | some r => some (i0 + r)
    | none => if tail w i0 then some i0 else none

/-- One `re.sub` pass for a diphthong regex: locate the single match (base
positions longest-hyphen-prefix first, then `^`; then the optional `qu` /
consonant-run piece) and delete the hyphen after the matched vowel. -/
def diphthongSub (tail : List Char → Nat → Bool) (w : List Char) : List Char :=
  match (hyphenSplitCandidates w).findSome? (diphthongMid tail w) with
  | none => w
  | some v => w.take (v + 1) ++ w.drop (v + 2)

/-- apply_exception_rules_post (core.py lines 365-385): for each of the four
post-rules, if the regex matches the current word, run three `re.sub`
passes (the source iterates once per group of the first `findall` tuple,
and each pattern has exactly three groups). -/
def apply_exception_rules_post (word : List Char) : List Char :=
  let w1 :=
    if ((hyphenSplitCandidates word).findSome?
        (fun i => hiatusTryAt word i)).isSome then
      hiatusSub (hiatusSub (hiatusSub word))
    else word
  let w2 :=
    if ((hyphenSplitCandidates w1).find? (clusterTryAt w1)).isSome then
      clusterSub (clusterSub (clusterSub w1))
    else w1
  let w3 :=
    if ((hyphenSplitCandidates w2).findSome?
        (diphthongMid loweringTailAt w2)).isSome then
      diphthongSub loweringTailAt (diphthongSub loweringTailAt
        (diphthongSub loweringTailAt w2))
    else w2
  let w4 :=
    if ((hyphenSplitCandidates w3).findSome?
        (diphthongMid raisingTailAt w3)).isSome then
      diphthongSub raisingTailAt (diphthongSub raisingTailAt
        (diphthongSub raisingTailAt w3))
    else w3
  w4

/-- Splitting a character list on hyphens (Python `output.split("-")`). -/
def splitHyphens : List Char → List (List Char)
  | [] => [[]]
  | c :: rest =>
    if c = '-' then
      [] :: splitHyphens rest
    else
      match splitHyphens rest with
      | [] => [[c]]
      | g :: gs => (c :: g) :: gs

/-- syllabify (core.py lines 388-420), parameterised by the two static
lookup tables.  Modelled from the spec: `SYLLABIFICATOR_FOREIGN_WORDS_DICT`
(here `fd`) maps a word to its pre-supplied hyphenation, and
`ALTERNATIVE_SYLLABIFICATION` (here `ad`) maps a word to its registered
variant syllabifications, each variant given by its syllable list (the
table's per-variant auxiliary data, which core.py never reads apart from
unpacking, is dropped); both tables live outside the analysed core.
Returns the syllable list and the registered variants (empty if none). -/
def syllabify (fd : List Char → Option (List Char))
    (ad : List Char → Option (List (List (List Char))))
    (word : List Char) (alternative_syllabification : Bool) :
    List (List Char) × List (List (List Char)) :=
  let output : List Char :=
    match fd word with
    | some hyphenated => hyphenated
    | none => apply_exception_rules_post (syllabifyLoop (apply_exception_rules word))
  let syllables := (splitHyphens output).filter (fun s => s ≠ [])
  if alternative_syllabification && (ad (pyLowerStr word)).isSome then
    -- core.py line 417 returns the first registered variant, which the
    -- caller unpacks into its syllable list (IndexError on an empty
    -- variant tuple cannot arise: registered entries carry a variant)
    (((ad (pyLowerStr word)).getD []).headD [], [])
  else
    (syllables, (ad word).getD [])

/-- get_orthographic_accent (core.py lines 423-438) on a syllable list: the
index of the syllable containing the first accented vowel. -/
def get_orthographic_accent (syllable_list : List (List Char)) : Option Nat :=
  syllable_list.findIdx? (fun syl => syl.any (inCls "áéíóú"))

/-- The character index of the first accented vowel: this is what
`get_orthographic_accent("".join(syllables))` computes inside
is_paroxytone, where the joined word (a string) is re-joined with `"|"`
between single characters. -/
def charAccentIndex (w : List Char) : Option Nat :=
  w.findIdx? (inCls "áéíóú")

/-- `paroxytone_re.search` on one syllable: ends in an unaccented vowel,
`n`, or vowel + `s` (case-insensitive). -/
def paroxytoneEnd (syl : List Char) : Bool :=
  match syl.reverse with
  | [] => false
  | c :: rest =>
    inCls "aeiou" c || inCls "n" c
      || (inCls "s" c && rest.head?.any (inCls "aeiou"))

/-- is_paroxytone (core.py lines 441-451).  `not position` is true both
when there is no accented vowel and when the first accented vowel sits at
character index 0; the regex is then applied to the last syllable
(`syllables[len - 1]` raises IndexError on an empty list, which cannot
happen for the non-empty words considered here and is modelled as
`false`). -/
def is_paroxytone (syllables : List (List Char)) : Bool :=
  match charAccentIndex syllables.flatten with
  | some (_ + 1) => false
  | _ =>
    match syllables.getLast? with
    | some syl => paroxytoneEnd syl
    | none => false

/-- break_on_h (core.py lines 678-682). -/
def break_on_h (liaison_type : LiaisonType)
    (_syllable_left syllable_right : SyllableInfo) : Bool :=
  decide (liaison_type = LiaisonType.synalepha)
    && (syllable_right.syllable.head?.any fun c => pyLower c = 'h')

/-- Splitting a character list on an arbitrary separator character
(Python `str.split(sep)` for one-character separators). -/
def splitOnChar (sep : Char) : List Char → List (List Char)
  | [] => [[]]
  | c :: rest =>
    if c = sep then
      [] :: splitOnChar sep rest
    else
      match splitOnChar sep rest with
      | [] => [[c]]
      | g :: gs => (c :: g) :: gs

/-- spacy_tag_to_dict (core.py lines 454-466): parse
`"Key=Value|Key=Value"` into an association list (Python builds a dict, so
a repeated key keeps its last value; `tagLookup` below reads accordingly).
A `|`-part without exactly one `=` would make Python's `dict()` raise; the
collaborator contract rules that out, and the model then keeps the first
two fragments. -/
def spacy_tag_to_dict (tag : String) : List (String × String) :=
  let tl := tag.toList
  if tl ≠ [] && tl.contains '=' then
    (splitOnChar '|' tl).map fun t =>
      match splitOnChar '=' t with
      | k :: v :: _ => (String.mk k, String.mk v)
      | _ => (String.mk t, "")
  else []

/-- Python dict lookup `tag.get(key)` over the association list: the last
binding of the key wins. -/
def tagLookup (tags : List (String × String)) (key : String) : Option String :=
  (tags.reverse.find? (fun p => p.1 == key)).map (fun p => p.2)

/-- The result dictionary of get_word_stress. -/
structure StressedWord where
  word : List SyllableInfo
  stress_position : Int
deriving DecidableEq, Repr

/-- The sinaeresis test of core.py lines 537-547 between the boundary
characters of two adjacent syllables of one word (false when either
syllable is empty, matching the `if first_syllable and second_syllable`
truthiness guard). -/
def sinaeresisPair (first_syllable second_syllable : List Char) : Bool :=
  match first_syllable.getLast?, second_syllable.head? with
  | some a, some b =>
    (STRONG_VOWELS.contains a && STRONG_VOWELS.contains b)
      || (WEAK_VOWELS.contains a && STRONG_VOWELS.contains b)
      || (STRONG_VOWELS.contains a && WEAK_VOWELS.contains b)
  | _, _ => false

/-- The output-building loop of get_word_stress (core.py lines 530-547):
each syllable is stressed exactly when its distance from the end equals
`-stressed_position`, and a syllable followed by a sinaeresis-eligible
boundary gets `has_sinaeresis = True` (the Python code sets the flag on
`out_syllable_list[index - 1]` while visiting index ≥ 1, which is the
same assignment). -/
def buildOutSyllables (total : Nat) (stressed_position : Int) :
    Nat → List (List Char) → List SyllableInfo
  | _, [] => []
  | index, syl :: rest =>
    { syllable := syl
      is_stressed := decide ((total : Int) - (index : Int) = -stressed_position)
      has_synalepha := none
      has_sinaeresis :=
        match rest.head? with
        | some nxt => if sinaeresisPair syl nxt then some true else none
        | none => none
      is_word_end := none
      synalepha_index := none
      sinaeresis_index := none } :: buildOutSyllables total stressed_position (index + 1) rest

/-- The `stressed_position` computation of get_word_stress (core.py lines
475-529), extracted as its own definition. -/
def wordStressPosition (fd : List Char → Option (List Char))
    (ad : List Char → Option (List (List (List Char))))
    (word : List Char) (pos : String) (tag : List (String × String))
    (alternative_syllabification : Bool) : Int :=
  let syllable_list := (syllabify fd ad word alternative_syllabification).1
  let word_lower := pyLowerStr word
    if syllable_list.length = 1 then
      let first_monosyllable := pyLowerStr (syllable_list.headD [])
      if (!(UNSTRESSED_UNACCENTED_MONOSYLLABLES.contains first_monosyllable))
          && (STRESSED_UNACCENTED_MONOSYLLABLES.contains first_monosyllable
            || !(["SCONJ", "CCONJ", "DET", "PRON", "ADP"].contains pos)
            || (pos == "PRON" && tagLookup tag "Case" == some "Nom")
            || (pos == "DET" && (tagLookup tag "Definite" == some "Dem"
                || tagLookup tag "Definite" == some "Ind"))
            || ["PROPN", "NUM", "NOUN", "VERB", "AUX", "ADV"].contains pos
            || (pos == "ADJ" && !(tagLookup tag "Poss" == some "Yes"))
            || (pos == "PRON" && (tagLookup tag "PronType" == some "Prs"
                || tagLookup tag "PronType" == some "Ind"))
            || (pos == "DET" && tagLookup tag "PronType" == some "Ind")
            -- core.py lines 499-500 read `pos in ("ADJ", "DET" and
            -- tag.get("Poss", None) == "Yes")`: Python evaluates the second
            -- tuple element to a boolean, which never equals the string
            -- `pos`, so the test is just `pos == "ADJ"`
            || (pos == "ADJ")
            || ((pos == "PRON" || pos == "DET")
                && (tagLookup tag "PronType" == some "Exc"
                  || tagLookup tag "PronType" == some "Int"
                  || tagLookup tag "PronType" == some "Dem"))
            || POSSESSIVE_PRON.contains (pyLowerStr word)) then
        -1
      else
        0
    else if ["INTJ", "PROPN", "NUM", "NOUN", "VERB", "AUX", "ADV"].contains pos
        || (pos == "ADJ" && !(POSSESSIVE_PRON_UNSTRESSED.contains word_lower))
        || (pos == "PRON" && (tagLookup tag "PronType" == some "Prs"
            || tagLookup tag "PronType" == some "Ind"))
        || (pos == "DET" && (tagLookup tag "PronType" == some "Dem"
            || tagLookup tag "PronType" == some "Ind"))
        || (pos == "DET" && tagLookup tag "Definite" == some "Ind")
        || (pos == "PRON" && tagLookup tag "Poss" == some "Yes")
        || ((pos == "PRON" || pos == "DET")
            && (tagLookup tag "PronType" == some "Exc"
              || tagLookup tag "PronType" == some "Int"
              || tagLookup tag "PronType" == some "Dem"))
        || POSSESSIVE_PRON.contains word_lower then
      match get_orthographic_accent syllable_list with
      | some tilde => -((syllable_list.length : Int) - (tilde : Int))
      | none => if is_paroxytone syllable_list then -2 else -1
    else
      0

/-- get_word_stress (core.py lines 469-550), parameterised like `syllabify`
by the two static tables. -/
def get_word_stress (fd : List Char → Option (List Char))
    (ad : List Char → Option (List (List (List Char))))
    (word : List Char) (pos : String) (tag : List (String × String))
    (alternative_syllabification : Bool) : StressedWord :=
  let syllable_list := (syllabify fd ad word alternative_syllabification).1
  let stressed_position :=
    wordStressPosition fd ad word pos tag alternative_syllabification
  { word := buildOutSyllables syllable_list.length stressed_position 0 syllable_list
    stress_position := stressed_position }

/-- A token of the external annotation pipeline (the fields of a spaCy
token that core.py reads: `text`/`orth_`, `is_alpha`, `pos_`, `tag_`). -/
structure Token where
  text : List Char
  is_alpha : Bool
  pos_ : String
  tag_ : String
deriving DecidableEq, Repr

/-- A line entry: a syllabified word with its stress position, or an
opaque symbol (core.py lines 593-595). -/
inductive WordEntry where
  | word (syllables : List SyllableInfo) (stress_position : Int)
  | symbol (text : List Char)
deriving DecidableEq, Repr

/-- get_last_syllable (core.py lines 553-562): the last syllable of the
most recent word entry (`token['word'][-1]` would raise IndexError on a
word with no syllables; that case yields `none` here and cannot arise for
the non-empty words considered). -/
def get_last_syllable (token_list : List WordEntry) : Option SyllableInfo :=
  match token_list.reverse.find? (fun e =>
      match e with
      | WordEntry.word _ _ => true
      | WordEntry.symbol _ => false) with
  | some (WordEntry.word syls _) => syls.getLast?
  | _ => none

/-- The syllable list of the most recent word entry (the list
`get_last_syllable` reads the last syllable of). -/
def lastWordSyllables (token_list : List WordEntry) : Option (List SyllableInfo) :=
  match token_list.reverse.find? (fun e =>
      match e with
      | WordEntry.word _ _ => true
      | WordEntry.symbol _ => false) with
  | some (WordEntry.word syls _) => some syls
  | _ => none

/-- In-place update performed at core.py line 592: set
`has_synalepha = True` on the last syllable of the most recent word entry
(the dict mutated by the Python code is aliased inside that entry). -/
def markSynalephaOnLastWord (entries : List WordEntry) : List WordEntry :=
  (markSynalephaRev entries.reverse).reverse
where
  markSynalephaRev : List WordEntry → List WordEntry
    | [] => []
    | WordEntry.symbol t :: rest => WordEntry.symbol t :: markSynalephaRev rest
    | WordEntry.word syls sp :: rest =>
      WordEntry.word
        (syls.dropLast ++
          (match syls.getLast? with
            | some s => [{ s with has_synalepha := some true }]
            | none => []))
        sp :: rest

/-- Splitting `tag_` at `"__"` (core.py lines 579-583): when the marker
occurs, the part before it is the coarse tag and the part after it the
morphology (several markers would make Python's 2-unpacking raise; the
collaborator contract sends at most one). -/
def splitTagMarker : List Char → Option (List Char × List Char)
  | [] => none
  | c :: rest =>
    if ['_', '_'].isPrefixOf (c :: rest) then
      some ([], (c :: rest).drop 2)
    else
      (splitTagMarker rest).map (fun p => (c :: p.1, p.2))

/-- The loop body of get_words (core.py lines 569-596) for one token. -/
def getWordsStep (fd : List Char → Option (List Char))
    (ad : List Char → Option (List (List (List Char))))
    (alternative_syllabification : Bool)
    (acc : List WordEntry) (token : Token) : List WordEntry :=
  if token.is_alpha then
    let pt : String × String :=
      match splitTagMarker token.tag_.toList with
      | some (p, t) => (String.mk p, String.mk t)
      | none => (token.pos_, token.tag_)
    let tags := spacy_tag_to_dict pt.2
    let stressed_word :=
      get_word_stress fd ad token.text pt.1 tags alternative_syllabification
    let acc2 :=
      match get_last_syllable acc, stressed_word.word.head? with
      | some first_syllable, some second_syllable =>
        if have_prosodic_liaison first_syllable second_syllable then
          markSynalephaOnLastWord acc
        else acc
      | _, _ => acc
    acc2 ++ [WordEntry.word stressed_word.word stressed_word.stress_position]
  else
    acc ++ [WordEntry.symbol token.text]

/-- get_words (core.py lines 565-596). -/
def get_words (fd : List Char → Option (List Char))
    (ad : List Char → Option (List (List (List Char))))
    (word_list : List Token) (alternative_syllabification : Bool) :
    List WordEntry :=
  word_list.foldl (getWordsStep fd ad alternative_syllabification) []

/-- get_syllables_word_end (core.py lines 162-176): concatenate the
syllables of all words (symbols skipped), marking each word's final
syllable with `is_word_end = True`. -/
def get_syllables_word_end (words : List WordEntry) : List SyllableInfo :=
  (words.map fun e =>
    match e with
    | WordEntry.word syls _ =>
      syls.dropLast ++
        (match syls.getLast? with
          | some s => [{ s with is_word_end := some true }]
          | none => [])
    | WordEntry.symbol _ => []).flatten

/-- `itertools.product([1, 0], repeat=n)` in generation order: the leftmost
coordinate varies slowest, starting from all ones. -/
def prodOneZero : Nat → List (List Nat)
  | 0 => [[]]
  | n + 1 =>
    ([1, 0].map fun b => (prodOneZero n).map (fun rest => b :: rest)).flatten

/-- The scatter step of generate_liaison_positions (core.py lines 738-742):
start from the all-zero vector and write the combination's entries at the
flagged indices in order. -/
def scatterCombination : List Nat → List Nat → List Nat
  | [], _ => []
  | p :: rest, combination =>
    if p != 0 then
      combination.headD 0 :: scatterCombination rest combination.tail
    else
      0 :: scatterCombination rest combination

/-- generate_liaison_positions (core.py lines 724-742), with the lazy
generator materialised in its generation order. -/
def generate_liaison_positions (syllables : List SyllableInfo)
    (liaison : LiaisonType) : List (List Nat) :=
  let positions := syllables.map fun s => pyBoolGetInt (liaisonProp liaison s)
  (prodOneZero positions.sum).map (scatterCombination positions)

/-- Truncation after a raised exception: a Python generator that raises
while producing a candidate delivers the earlier candidates, then the
exception, and nothing further. -/
def truncAtNone {α : Type} : List (Option α) → List (Option α)
  | [] => []
  | some a :: rest => some a :: truncAtNone rest
  | none :: _ => [none]

/-- The liaison processing orders of core.py lines 694-699, in source
order: synalepha only, sinaeresis only, sinaeresis then synalepha,
synalepha then sinaeresis. -/
def liaisonOrders : List (LiaisonType × Option LiaisonType) :=
  [(LiaisonType.synalepha, none),
   (LiaisonType.sinaeresis, none),
   (LiaisonType.sinaeresis, some LiaisonType.synalepha),
   (LiaisonType.synalepha, some LiaisonType.sinaeresis)]

/-- generate_phonological_groups (core.py lines 685-721), with the lazy
generator materialised in its generation order.  Each list entry is one
yielded candidate (`some groups`), or the exception that the generator
raises at that point (`none`), after which nothing further is produced.
Note that for the two-kind orders the second position vector is generated
from the original syllables but applied to the already-reduced groups,
exactly as in the source. -/
def generate_phonological_groups (fd : List Char → Option (List Char))
    (ad : List Char → Option (List (List (List Char))))
    (tokens : List Token) : List (Option (List SyllableInfo)) :=
  truncAtNone
    (([true, false].map fun alternative_syllabification =>
      let words := get_words fd ad tokens alternative_syllabification
      let syllables := get_syllables_word_end words
      (liaisonOrders.map fun liaison =>
        ([some break_on_h, none].map fun ignore_synalepha_h =>
          ((generate_liaison_positions syllables liaison.1).map
            fun liaison_positions_1 =>
              let groups := get_phonological_groups syllables liaison.1
                ignore_synalepha_h (some liaison_positions_1)
              match liaison.2 with
              | none => [groups]
              | some second_liaison =>
                match groups with
                | none => [none]
                | some gs =>
                  (generate_liaison_positions syllables second_liaison).map
                    fun liaison_positions_2 =>
                      get_phonological_groups gs second_liaison
                        ignore_synalepha_h (some liaison_positions_2)).flatten
          ).flatten).flatten).flatten)

/-- One line of the get_scansion output (the keys the rhyme-free path
writes: the word breakdown, the phonological groups and the rhythm). -/
structure LineResult where
  tokens : List WordEntry
  phonological_groups : List SyllableInfo
  rhythm : Rhythm
deriving DecidableEq, Repr

/-- The line-splitting loop of get_scansion (core.py lines 620-631): a
SPACE token containing a newline closes the current line when it is
non-empty; every other token (including a leading newline token) is
appended to the current line. -/
def splitLines (tokens : List Token) : List (List Token) :=
  let st := tokens.foldl
    (fun (st : List (List Token) × List Token) token =>
      if token.pos_ == "SPACE" && token.text.contains '\n'
          && st.2.length > 0 then
        (st.1 ++ [st.2], [])
      else
        (st.1, st.2 ++ [token]))
    ([], [])
  if st.2.length > 0 then st.1 ++ [st.2] else st.1

/-- The per-line natural analysis of get_scansion (core.py lines 633-641):
words, word-end syllables, sinaeresis reduction then synalepha reduction
with default positions, and the rhythm; `none` when any step raises. -/
def buildLine (fd : List Char → Option (List Char))
    (ad : List Char → Option (List (List (List Char))))
    (rhythm_format : String) (line_tokens : List Token) : Option LineResult :=
  let words := get_words fd ad line_tokens true
  let syllables := get_syllables_word_end words
  match get_phonological_groups syllables LiaisonType.sinaeresis none none with
  | none => none
  | some g1 =>
    match get_phonological_groups g1 LiaisonType.synalepha none none with
    | none => none
    | some groups =>
      match get_rhythmical_pattern groups rhythm_format with
      | none => none
      | some r =>
        some { tokens := words, phonological_groups := groups, rhythm := r }

/-- The candidate consumption loop of core.py lines 665-674: walk the
generated candidates, return the first one whose rhythm length equals the
target (`some (some _)`), `some none` when the enumeration is exhausted
without a match, and `none` when the generator or a rhythm computation
raises. -/
def searchCandidates (rhythm_format : String) (target : Nat) :
    List (Option (List SyllableInfo)) →
      Option (Option (List SyllableInfo × Rhythm))
  | [] => some none
  | none :: _ => none
  | some c :: rest =>
    match get_rhythmical_pattern c rhythm_format with
    | none => none
    | some r =>
      if r.length = target then
        some (some (c, r))
      else
        searchCandidates rhythm_format target rest

/-- The body of the final `for idx, line in enumerate(lines)` loop of
get_scansion (core.py lines 657-674) for one line, given the explicit
per-line length list: look up the line's target (`structure_length[idx]`
IndexError is `none`), and when the natural rhythm length is strictly below
it, search the generated candidates, substituting the first one whose
rhythm length equals the target and keeping the natural line when none
matches; a raised exception during the search propagates. -/
def scansionAdjustLine (fd : List Char → Option (List Char))
    (ad : List Char → Option (List (List (List Char))))
    (rhythm_format : String) (token_lines : List (List Token))
    (structure_length : List Nat) (p : Nat × LineResult) :
    Option LineResult :=
  match structure_length.get? p.1 with
  | none => none
  | some target =>
    if p.2.rhythm.length < target then
      match searchCandidates rhythm_format target
          (generate_phonological_groups fd ad (token_lines.getD p.1 [])) with
      | none => none
      | some none => some p.2
      | some (some (candidate, rhythm)) =>
        some { p.2 with phonological_groups := candidate, rhythm := rhythm }
    else
      some p.2

/-- get_scansion (core.py lines 599-675) on an already-tokenised text, for
the `rhyme_analysis=False` path (the rhyme analyzer is an external
collaborator; without it no line carries a structure name, so
`STRUCTURES_LENGTH.get(None)` is `None` and only an explicit
`rhythmical_lengths` list triggers the candidate search).  `none` is a
raised exception: a line with no stressed group, a candidate computation
that raises, or `rhythmical_lengths` shorter than the number of lines
(`structure_length[idx]` IndexError). -/
def get_scansion (fd : List Char → Option (List Char))
    (ad : List Char → Option (List (List (List Char))))
    (tokens : List Token) (rhythm_format : String)
    (rhythmical_lengths : Option (List Nat)) : Option (List LineResult) :=
  match (splitLines tokens).mapM (buildLine fd ad rhythm_format) with
  | none => none
  | some lines =>
    match rhythmical_lengths with
    | none => some lines
    | some structure_length =>
      lines.enum.mapM
        (scansionAdjustLine fd ad rhythm_format (splitLines tokens)
          structure_length)

/-- The empty foreign-word table (the concrete examples below are words
without a registered override). -/
def fdEmpty : List Char → Option (List Char) :=
  fun _ => none

/-- The empty alternative-syllabification table. -/
def adEmpty : List Char → Option (List (List (List Char))) :=
  fun _ => none

/-- The two-token line "sea osa" (a verb and a noun), used as the concrete
line for the candidate-search witnesses. -/
def seaOsaTokens : List Token :=
  [{ text := "sea".toList, is_alpha := true, pos_ := "VERB", tag_ := "" },
   { text := "osa".toList, is_alpha := true, pos_ := "NOUN", tag_ := "" }]

/-- The naturally analysed lines of "sea osa". -/
def seaOsaLines : List LineResult :=
  ((splitLines seaOsaTokens).mapM (buildLine fdEmpty adEmpty "pattern")).getD []

/-- The first naturally analysed line of "sea osa". -/
def seaOsaLine : LineResult :=
  (seaOsaLines.get? 0).getD
    { tokens := [], phonological_groups := [],
      rhythm := { stress := "", type := "", length := 0 } }

/-- The get_scansion output of "sea osa" under the explicit target list
`[2]`. -/
def seaOsaOut2 : List LineResult :=
  (get_scansion fdEmpty adEmpty seaOsaTokens "pattern" (some [2])).getD []

/-- The hypotheses of the termination claim for the reduction loop: the
position vector is aligned with the syllables, is 0/1-valued, and carries
no eligibility at the final position. -/
def GoodPositions (syls : List SyllableInfo) (ps : List Nat) : Prop :=
  ps.length = syls.length ∧ (∀ p ∈ ps, p ≤ 1) ∧
    (ps = [] ∨ ps.getLast? = some 0)

/-- Every successful scan returns at most as many syllables as it was
given; it returns strictly fewer when it starts on a pending skip, and if
it returns exactly as many then the new position vector either is all
zeroes or has a strictly smaller sum.  This bounds the `while` loop. -/
theorem reducePass_length_sum (t : LiaisonType)
    (bf : Option (LiaisonType → SyllableInfo → SyllableInfo → Bool)) :
    ∀ (syls : List SyllableInfo) (ps : List Nat) (ns : Option SyllableInfo)
      (sk : Bool) (rs : List SyllableInfo) (ri : List Nat)
      (ns2 : Option SyllableInfo) (sk2 : Bool),
      reducePass t bf syls ps ns sk = some (rs, ri, ns2, sk2) →
      rs.length ≤ syls.length ∧
        (sk = true → syls = [] ∨ rs.length + 1 ≤ syls.length) ∧
        (rs.length = syls.length → ri.sum = 0 ∨ ri.sum < ps.sum) := by
  intro syls
  induction syls with
  | nil =>
    intro ps ns sk rs ri ns2 sk2 h
    simp only [reducePass, Option.some.injEq, Prod.mk.injEq] at h
    obtain ⟨h1, h2, -⟩ := h
    subst h1; subst h2
    simp
  | cons s rest ih =>
    intro ps ns sk rs ri ns2 sk2 h
    rw [reducePass] at h
    cases sk with
    | true =>
      rw [if_pos rfl] at h
      obtain ⟨h1, -, -⟩ := ih ps.tail ns false rs ri ns2 sk2 h
      refine ⟨Nat.le_succ_of_le h1, fun _ => Or.inr (Nat.succ_le_succ h1), ?_⟩
      intro heq
      simp only [List.length_cons] at heq
      omega
    | false =>
      rw [if_neg (by simp)] at h
      cases hps : ps.head? with
      | none => simp [hps] at h
      | some p =>
        simp only [hps] at h
        obtain ⟨q, qs, hqs⟩ : ∃ q qs, ps = q :: qs := by
          cases ps with
          | nil => simp at hps
          | cons q qs => exact ⟨q, qs, rfl⟩
        have hq : q = p := by rw [hqs] at hps; simpa using hps
        cases hm : (p != 0 && !passBreakage t bf s rest.head?) with
        | false =>
          rw [hm, Bool.cond_false] at h
          rw [Option.map_eq_some'] at h
          obtain ⟨⟨rs', ri', nsx, skx⟩, hrec, heq⟩ := h
          simp only [Prod.mk.injEq] at heq
          obtain ⟨hrs, hri, -⟩ := heq
          subst hrs; subst hri
          obtain ⟨h1, -, h3⟩ :=
            ih ps.tail (passNext rest.head? ns) false rs' ri' nsx skx hrec
          refine ⟨Nat.succ_le_succ h1, by simp, ?_⟩
          intro heq
          have hlen : rs'.length = rest.length := by
            simpa using heq
          rcases h3 hlen with h0 | hlt
          · left; simpa using h0
          · right
            have : ps.tail.sum ≤ ps.sum := by
              rw [hqs]; simp
            simp only [List.sum_cons]
            omega
        | true =>
          rw [hm, Bool.cond_true] at h
          cases hns : passNext rest.head? ns with
          | none => simp [hns] at h
          | some partner =>
            simp only [hns] at h
            cases hp2 : ps.tail.head? with
            | none => simp [hp2] at h
            | some p2 =>
              simp only [hp2] at h
              rw [Option.map_eq_some'] at h
              obtain ⟨⟨rs', ri', nsx, skx⟩, hrec, heq⟩ := h
              simp only [Prod.mk.injEq] at heq
              obtain ⟨hrs, hri, -⟩ := heq
              subst hrs; subst hri
              obtain ⟨h1, h2, -⟩ :=
                ih ps.tail (some partner) true rs' ri' nsx skx hrec
              refine ⟨Nat.succ_le_succ h1, by simp, ?_⟩
              intro heq
              have hlen : rs'.length = rest.length := by
                simpa using heq
              rcases h2 rfl with hrest | hlt
              · -- the stale final merge: `rest` is empty
                subst hrest
                have hrs' : rs' = [] ∧ ri' = [] := by
                  simp only [reducePass, Option.some.injEq, Prod.mk.injEq]
                    at hrec
                  exact ⟨hrec.1.symm, hrec.2.1.symm⟩
                obtain ⟨hr1, hr2⟩ := hrs'
                subst hr1; subst hr2
                right
                have hp0 : p ≠ 0 := by
                  intro hp
                  subst hp
                  simp at hm
                have hp2le : p2 ≤ qs.sum := by
                  have : qs.head? = some p2 := by
                    rw [hqs] at hp2; simpa using hp2
                  cases qs with
                  | nil => simp at this
                  | cons a as =>
                    have ha : a = p2 := by simpa using this
                    subst ha; simp
                rw [hqs, List.sum_cons]
                subst hq
                simp only [List.sum_cons, List.sum_nil]
                omega
              · omega

/-- Auxiliary bound: a successful scan never raises the position sum
(`sk = true` means the scan starts by skipping the element whose position
entry was already consumed by the previous merge). -/
theorem reducePass_sum_le (t : LiaisonType)
    (bf : Option (LiaisonType → SyllableInfo → SyllableInfo → Bool)) :
    ∀ (syls : List SyllableInfo) (ps : List Nat) (ns : Option SyllableInfo)
      (sk : Bool) (rs : List SyllableInfo) (ri : List Nat)
      (ns2 : Option SyllableInfo) (sk2 : Bool),
      reducePass t bf syls ps ns sk = some (rs, ri, ns2, sk2) →
      ri.sum ≤ cond sk ps.tail.sum ps.sum := by
  intro syls
  induction syls with
  | nil =>
    intro ps ns sk rs ri ns2 sk2 h
    simp only [reducePass, Option.some.injEq, Prod.mk.injEq] at h
    obtain ⟨-, h2, -⟩ := h
    subst h2
    cases sk <;> simp
  | cons s rest ih =>
    intro ps ns sk rs ri ns2 sk2 h
    rw [reducePass] at h
    have htail : ps.tail.sum ≤ ps.sum := by
      cases ps <;> simp
    cases sk with
    | true =>
      rw [if_pos rfl] at h
      have := ih ps.tail ns false rs ri ns2 sk2 h
      simpa using this
    | false =>
      rw [if_neg (by simp)] at h
      cases hps : ps.head? with
      | none => simp [hps] at h
      | some p =>
        simp only [hps] at h
        cases hm : (p != 0 && !passBreakage t bf s rest.head?) with
        | false =>
          rw [hm, Bool.cond_false] at h
          rw [Option.map_eq_some'] at h
          obtain ⟨⟨rs', ri', nsx, skx⟩, hrec, heq⟩ := h
          simp only [Prod.mk.injEq] at heq
          obtain ⟨-, hri, -⟩ := heq
          subst hri
          have := ih ps.tail (passNext rest.head? ns) false rs' ri' nsx skx hrec
          simp only [Bool.cond_false] at this ⊢
          simp only [List.sum_cons]
          omega
        | true =>
          rw [hm, Bool.cond_true] at h
          cases hns : passNext rest.head? ns with
          | none => simp [hns] at h
          | some partner =>
            simp only [hns] at h
            cases hp2 : ps.tail.head? with
            | none => simp [hp2] at h
            | some p2 =>
              simp only [hp2] at h
              rw [Option.map_eq_some'] at h
              obtain ⟨⟨rs', ri', nsx, skx⟩, hrec, heq⟩ := h
              simp only [Prod.mk.injEq] at heq
              obtain ⟨-, hri, -⟩ := heq
              subst hri
              have hih := ih ps.tail (some partner) true rs' ri' nsx skx hrec
              simp only [Bool.cond_true] at hih
              have hsplit : p2 + ps.tail.tail.sum = ps.tail.sum := by
                cases hqs : ps.tail with
                | nil => rw [hqs] at hp2; simp at hp2
                | cons a as =>
                  rw [hqs] at hp2
                  have : a = p2 := by simpa using hp2
                  subst this
                  simp
              simp only [Bool.cond_false, List.sum_cons]
              omega

/-- A budget exceeding `syls.length + ps.sum` is never exhausted: every
scan strictly decreases `length + sum`. -/
theorem reduceLoopFuel_enough (t : LiaisonType)
    (bf : Option (LiaisonType → SyllableInfo → SyllableInfo → Bool)) :
    ∀ (fuel : Nat) (syls : List SyllableInfo) (ps : List Nat)
      (ns : Option SyllableInfo) (sk : Bool),
      syls.length + ps.sum < fuel →
      reduceLoopFuel t bf fuel syls ps ns sk ≠ none := by
  intro fuel
  induction fuel with
  | zero => intro syls ps ns sk h; omega
  | succ m ih =>
    intro syls ps ns sk h
    rw [reduceLoopFuel]
    by_cases hsum : 0 < ps.sum
    · rw [if_pos hsum]
      cases hp : reducePass t bf syls ps ns sk with
      | none => simp
      | some r =>
        obtain ⟨rs, ri, ns2, sk2⟩ := r
        obtain ⟨h1, -, h3⟩ :=
          reducePass_length_sum t bf syls ps ns sk rs ri ns2 sk2 hp
        have h4 : ri.sum ≤ ps.sum := by
          have := reducePass_sum_le t bf syls ps ns sk rs ri ns2 sk2 hp
          have htail : ps.tail.sum ≤ ps.sum := by cases ps <;> simp
          cases sk <;> simp only [Bool.cond_true, Bool.cond_false] at this <;>
            omega
        apply ih
        rcases Nat.lt_or_ge rs.length syls.length with hlt | hge
        · omega
        · have heq : rs.length = syls.length := Nat.le_antisymm h1 hge
          rcases h3 heq with h0 | h5 <;> omega
    · rw [if_neg hsum]
      simp

/-- Folding `++` over strings concatenates their character data. -/
theorem String.foldl_append_data (l : List String) :
    ∀ acc : String,
      (l.foldl (fun r s => r ++ s) acc).data =
        acc.data ++ (l.map String.data).flatten := by
  induction l with
  | nil => intro acc; simp
  | cons s rest ih =>
    intro acc
    simp only [List.foldl_cons, ih, String.data_append, List.map_cons,
      List.flatten_cons, List.append_assoc]

/-- Joining one-character strings produced by a per-element function is the
string of the per-element characters. -/
theorem String.join_singleton_chars {α : Type} (f : α → String) (g : α → Char)
    (hfg : ∀ a, f a = String.mk [g a]) (l : List α) :
    String.join (l.map f) = String.mk (l.map g) := by
  have hdata : ∀ m : List α, (m.map fun a => (f a).data).flatten = m.map g := by
    intro m
    induction m with
    | nil => rfl
    | cons a rest ih => simp [hfg a, ih]
  apply String.ext
  rw [String.join, String.foldl_append_data]
  simp only [List.map_map, Function.comp_def]
  simpa using hdata l

/-! ## Claim theorems -/

/-- C2 (counterexample): the scansion pipeline is claimed to raise no
exception for well-formed token input, and in particular `get_stresses` is
claimed to return a result for every phonological-group sequence including
an all-unstressed one.  In fact `stresses[::-1].index(True)` raises
`ValueError` on any line with no stressed group: directly on an
all-unstressed group sequence, and through the whole pipeline on the
well-formed two-token line "de la" (two unstressed determiners). -/
theorem get_stresses_unstressed_counterexample :
    get_stresses [mkSyllable "a".toList false] = none ∧
    get_scansion fdEmpty adEmpty
      [{ text := "de".toList, is_alpha := true, pos_ := "DET", tag_ := "" },
       { text := "la".toList, is_alpha := true, pos_ := "DET", tag_ := "" }]
      "pattern" none = none := by
  constructor
  · decide
  · decide

/-- C2 (amended): `get_stresses` returns a result for every
phonological-group sequence that contains at least one stressed group; a
sequence with no stressed group makes it raise. -/
theorem get_stresses_total_when_stressed (phonological_groups : List SyllableInfo)
    (h : ∃ g ∈ phonological_groups, g.is_stressed = true) :
    (get_stresses phonological_groups).isSome := by
  rw [get_stresses]
  have hmem : true ∈ (phonological_groups.map fun g => g.is_stressed).reverse := by
    rw [List.mem_reverse, List.mem_map]
    obtain ⟨g, hg, hs⟩ := h
    exact ⟨g, hg, hs⟩
  have : ((phonological_groups.map fun g => g.is_stressed).reverse.findIdx?
      (fun s => s = true)).isSome := by
    rw [List.findIdx?_isSome, List.any_eq_true]
    exact ⟨true, hmem, by simp⟩
  cases hf : (phonological_groups.map fun g => g.is_stressed).reverse.findIdx?
      (fun s => s = true) with
  | none => rw [hf] at this; simp at this
  | some i =>
    simp only [hf]
    by_cases h0 : i = 0
    · simp [h0]
    · by_cases h2 : 2 ≤ i <;> simp [h0, h2]

/-- C2 (witness for the amended claim). -/
theorem get_stresses_total_when_stressed_witness :
    (get_stresses [mkSyllable "se".toList true]).isSome :=
  get_stresses_total_when_stressed [mkSyllable "se".toList true]
    ⟨mkSyllable "se".toList true, by simp, rfl⟩

/-- C3 (counterexample): `format_stress([false,true,false,true],
"indexed")` is claimed to return "2,4"; the source's
`indexed_separator` parameter defaults to "-", so it returns "2-4". -/
theorem format_stress_indexed_counterexample :
    ¬ (format_stress [false, true, false, true] "indexed" "-" = "2,4") := by
  decide

/-- C3 (amended): with the source's default separator "-", the three
formats on `[false, true, false, true]` give "-+-+", "2-4" and "0101";
in general "pattern" maps each slot to '+'/'-', "binary" maps each slot to
'1'/'0', and "indexed" joins the one-based indices of the stressed slots
with the separator "-". -/
theorem format_stress_formats :
    format_stress [false, true, false, true] "pattern" "-" = "-+-+"
    ∧ format_stress [false, true, false, true] "indexed" "-" = "2-4"
    ∧ format_stress [false, true, false, true] "binary" "-" = "0101"
    ∧ (∀ stresses : List Bool,
        format_stress stresses "pattern" "-" =
          String.mk (stresses.map fun s => if s then '+' else '-'))
    ∧ (∀ stresses : List Bool,
        format_stress stresses "binary" "-" =
          String.mk (stresses.map fun s => if s then '1' else '0'))
    ∧ (∀ stresses : List Bool,
        format_stress stresses "indexed" "-" =
          String.intercalate "-"
            (stresses.enum.filterMap fun p =>
              if p.2 then some (Nat.repr (p.1 + 1)) else none)) := by
  refine ⟨by decide, by decide, by decide, ?_, ?_, ?_⟩
  · intro stresses
    show String.join _ = _
    rw [String.join_singleton_chars (fun s : Bool => if s then "+" else "-")
      (fun s : Bool => if s then '+' else '-') (by intro b; cases b <;> rfl)]
  · intro stresses
    show String.join _ = _
    rw [String.join_singleton_chars (fun s : Bool => if s then "1" else "0")
      (fun s : Bool => if s then '1' else '0') (by intro b; cases b <;> rfl)]
  · intro stresses
    rfl

/-- C5: for non-empty syllables, prosodic liaison holds exactly when the
'y'-blocking rule does not fire — the second syllable starting with a
(case-insensitive) 'y' immediately followed by a vowel — and the first
syllable's last character is in LIAISON_FIRST_PART while the second
syllable's first character is in LIAISON_SECOND_PART.  The blocking test
inspects only the second syllable's leading characters, so a first
syllable ending in 'y' never blocks. -/
theorem have_prosodic_liaison_spec (s1 s2 : SyllableInfo) (c : Char)
    (cs : List Char) (h1 : s1.syllable ≠ []) (h2 : s2.syllable = c :: cs) :
    (have_prosodic_liaison s1 s2 = true ↔
      (¬ (pyLower c = 'y' ∧
          ∃ v, cs.head? = some v ∧ pyLower v ∈ "aeiouáéíúó".toList))
        ∧ s1.syllable.getLast h1 ∈ LIAISON_FIRST_PART
        ∧ c ∈ LIAISON_SECOND_PART) := by
  have hlast : s1.syllable.getLast? = some (s1.syllable.getLast h1) :=
    List.getLast?_eq_getLast _ h1
  rw [have_prosodic_liaison]
  cases cs with
  | nil =>
    rw [if_neg (by simp [h2])]
    simp [h2, hlast]
  | cons v cst =>
    by_cases hc : pyLower c = 'y' ∧ pyLower v ∈ "aeiouáéíúó".toList
    · rw [if_pos (by
        simp only [h2]
        simp [hc.1]
        simpa using hc.2)]
      simp only [Bool.false_eq_true, false_iff]
      intro hblock
      exact hblock.1 ⟨hc.1, v, rfl, hc.2⟩
    · rw [if_neg (by
        simp only [h2, Bool.and_eq_true, decide_eq_true_eq]
        rintro ⟨⟨hcy, -⟩, hvmem⟩
        apply hc
        refine ⟨by simpa using hcy, ?_⟩
        simp only [List.get?_cons_succ, List.get?_cons_zero] at hvmem
        simpa using hvmem)]
      simp only [Bool.and_eq_true]
      constructor
      · rintro ⟨ha, hb⟩
        refine ⟨?_, ?_, ?_⟩
        · rintro ⟨hcy, w, hw, hwmem⟩
          have : v = w := by simpa using hw
          subst this
          exact hc ⟨hcy, hwmem⟩
        · rw [hlast] at ha
          simpa using ha
        · rw [h2] at hb
          simpa using hb
      · rintro ⟨-, hfirst, hsecond⟩
        constructor
        · rw [hlast]
          simpa using hfirst
        · rw [h2]
          simpa using hsecond

/-- C5 (witness): "la" + "amiga"-style boundary: first syllable "la", second
syllable "a" — eligible; and the asymmetry: first syllable ending in 'y'
("muy") with a vowel-initial second syllable ("o") is NOT blocked. -/
theorem have_prosodic_liaison_spec_witness :
    (have_prosodic_liaison (mkSyllable "la".toList false)
        (mkSyllable "a".toList false) = true ↔
      (¬ (pyLower 'a' = 'y' ∧
          ∃ v, ([] : List Char).head? = some v ∧
            pyLower v ∈ "aeiouáéíúó".toList))
        ∧ ("la".toList.getLast (by decide)) ∈ LIAISON_FIRST_PART
        ∧ 'a' ∈ LIAISON_SECOND_PART) ∧
    have_prosodic_liaison (mkSyllable "muy".toList false)
      (mkSyllable "o".toList false) = true := by
  constructor
  · exact have_prosodic_liaison_spec (mkSyllable "la".toList false)
      (mkSyllable "a".toList false) 'a' [] (by decide) rfl
  · decide

/-- In a boolean list that contains `true`, the index of the first `true`
is the length of the leading run of `false`. -/
theorem bool_findIdx_takeWhile (l : List Bool) (h : true ∈ l) :
    l.findIdx? (fun b => b = true) =
      some (l.takeWhile (fun b => b = false)).length := by
  induction l with
  | nil => simp at h
  | cons b rest ih =>
    cases b with
    | true => simp [List.findIdx?_cons, List.takeWhile_cons]
    | false =>
      have hr : true ∈ rest := by simpa using h
      simp [List.findIdx?_cons, List.takeWhile_cons]
      simpa using ih hr

/-- C4: on a group sequence with at least one stressed group, writing `s`
for the per-group stress booleans and `k` for the distance of the last
stressed group from the end (the length of the trailing unstressed run),
`get_stresses` appends one unstressed slot when the last group is stressed
(`k = 0`), drops the final slot when the last stressed group is three or
more positions from the end (`k ≥ 2`), and returns `s` unchanged when the
last stressed group is the penultimate one (`k = 1`, i.e. `s` ends in
`[true, false]`); the rhythm length reported by `get_rhythmical_pattern`
is the length of this corrected list. -/
theorem get_stresses_line_end_correction (groups : List SyllableInfo)
    (h : ∃ g ∈ groups, g.is_stressed = true) :
    ∀ s k, s = groups.map (fun g => g.is_stressed) →
      k = (s.reverse.takeWhile (fun b => b = false)).length →
      (get_stresses groups =
          some (if k = 0 then s ++ [false]
            else if 2 ≤ k then s.dropLast else s))
        ∧ (k = 0 ↔ s.getLast? = some true)
        ∧ (k = 1 ↔ ∃ t, s = t ++ [true, false])
        ∧ (∀ rhythm_format,
            (get_rhythmical_pattern groups rhythm_format).map
                (fun r => r.length) =
              some (if k = 0 then s.length + 1
                else if 2 ≤ k then s.length - 1 else s.length)) := by
  intro s k hs hk
  have hmem : true ∈ s.reverse := by
    rw [List.mem_reverse, hs, List.mem_map]
    obtain ⟨g, hg, hstr⟩ := h
    exact ⟨g, hg, hstr⟩
  have hfind := bool_findIdx_takeWhile s.reverse hmem
  have hfirst : get_stresses groups =
      some (if k = 0 then s ++ [false]
        else if 2 ≤ k then s.dropLast else s) := by
    rw [get_stresses]
    simp only [← hs, hfind, ← hk]
    by_cases h0 : k = 0
    · simp [h0]
    · by_cases h2 : 2 ≤ k <;> simp [h0, h2]
  refine ⟨hfirst, ?_, ?_, ?_⟩
  · -- k = 0 iff the final group is stressed
    cases hrev : s.reverse with
    | nil =>
      rw [hrev] at hmem
      simp at hmem
    | cons b rbs =>
      have hlast : s.getLast? = some b := by
        rw [← List.head?_reverse, hrev]
        rfl
      rw [hk, hrev, hlast]
      cases b with
      | true => simp [List.takeWhile_cons]
      | false => simp [List.takeWhile_cons]
  · -- k = 1 iff s ends in [true, false]
    have hrevform : (∃ t, s = t ++ [true, false]) ↔
        (∃ u, s.reverse = false :: true :: u) := by
      constructor
      · rintro ⟨t, rfl⟩
        exact ⟨t.reverse, by simp⟩
      · rintro ⟨u, hu⟩
        refine ⟨u.reverse, ?_⟩
        have := congrArg List.reverse hu
        simpa using this
    rw [hrevform]
    cases hrev : s.reverse with
    | nil =>
      rw [hrev] at hmem
      simp at hmem
    | cons b rbs =>
      cases b with
      | true =>
        rw [hk, hrev]
        simp [List.takeWhile_cons]
      | false =>
        have hrb : true ∈ rbs := by
          rw [hrev] at hmem
          simpa using hmem
        rw [hk, hrev]
        simp only [List.takeWhile_cons, decide_True, List.length_cons,
          Nat.add_left_inj, Nat.add_eq_zero]
        cases hrbs : rbs with
        | nil =>
          rw [hrbs] at hrb
          simp at hrb
        | cons b2 rbs2 =>
          cases b2 with
          | true => simp [List.takeWhile_cons]
          | false => simp [List.takeWhile_cons]
  · intro rhythm_format
    rw [get_rhythmical_pattern, hfirst]
    by_cases h0 : k = 0
    · simp [h0]
    · by_cases h2 : 2 ≤ k <;> simp [h0, h2]

/-- C4 (witness): the oxytone line [stressed] gains a slot, and the
correction data agree on the concrete groups [stressed, unstressed]. -/
theorem get_stresses_line_end_correction_witness :
    (get_stresses [mkSyllable "sol".toList true] =
        some (if (0 : Nat) = 0 then [true] ++ [false]
          else if 2 ≤ (0 : Nat) then [true].dropLast else [true]))
      ∧ ((0 : Nat) = 0 ↔ ([true] : List Bool).getLast? = some true) := by
  have := get_stresses_line_end_correction [mkSyllable "sol".toList true]
    ⟨mkSyllable "sol".toList true, by simp, rfl⟩ [true] 0 (by decide) (by decide)
  exact ⟨this.1, this.2.1⟩

/-- Successful `mapM` over `Option` maps each element to a successful
result, positionally. -/
theorem mapM_option_get? {α β : Type} (g : α → Option β) :
    ∀ (l : List α) (out : List β), l.mapM g = some out →
      ∀ i a, l.get? i = some a → ∃ b, g a = some b ∧ out.get? i = some b := by
  intro l
  induction l with
  | nil =>
    intro out h i a ha
    simp at ha
  | cons x xs ih =>
    intro out h i a ha
    rw [List.mapM_cons] at h
    cases hx : g x with
    | none => rw [hx] at h; simp at h
    | some y =>
      rw [hx] at h
      cases hxs : xs.mapM g with
      | none => rw [hxs] at h; simp at h
      | some ys =>
        rw [hxs] at h
        simp only [Option.pure_def, Option.bind_eq_bind, Option.some_bind,
          Option.some.injEq] at h
        subst h
        cases i with
        | zero =>
          have : x = a := by simpa using ha
          subst this
          exact ⟨y, hx, rfl⟩
        | succ n =>
          have ha' : xs.get? n = some a := by simpa using ha
          obtain ⟨b, hb, hout⟩ := ih ys hxs n a ha'
          exact ⟨b, hb, by simpa using hout⟩

/-- A successful candidate search returns a candidate whose rhythm length
equals the target, and it is the first such candidate in enumeration
order. -/
theorem searchCandidates_first_match (rhythm_format : String) (target : Nat) :
    ∀ (cands : List (Option (List SyllableInfo))) (c : List SyllableInfo)
      (r : Rhythm),
      searchCandidates rhythm_format target cands = some (some (c, r)) →
      r.length = target ∧ get_rhythmical_pattern c rhythm_format = some r ∧
      ∃ j, cands.get? j = some (some c) ∧
        ∀ jp cp rp, jp < j → cands.get? jp = some (some cp) →
          get_rhythmical_pattern cp rhythm_format = some rp →
          rp.length ≠ target := by
  intro cands
  induction cands with
  | nil =>
    intro c r h
    simp [searchCandidates] at h
  | cons oc rest ih =>
    intro c r h
    cases oc with
    | none => simp [searchCandidates] at h
    | some c0 =>
      rw [searchCandidates] at h
      cases hr0 : get_rhythmical_pattern c0 rhythm_format with
      | none => simp [hr0] at h
      | some r0 =>
        simp only [hr0] at h
        by_cases hlen : r0.length = target
        · rw [if_pos hlen] at h
          have hc : c0 = c ∧ r0 = r := by
            have := h
            simp only [Option.some.injEq, Prod.mk.injEq] at this
            exact this
          obtain ⟨rfl, rfl⟩ := hc
          refine ⟨hlen, hr0, 0, rfl, ?_⟩
          intro jp cp rp hjp
          omega
        · rw [if_neg hlen] at h
          obtain ⟨hl, hp, j, hj, hfirst⟩ := ih c r h
          refine ⟨hl, hp, j + 1, by simpa using hj, ?_⟩
          intro jp cp rp hjp hget hrp
          cases jp with
          | zero =>
            have hcp : c0 = cp := by simpa using hget
            subst hcp
            have : rp = r0 := by
              rw [hr0] at hrp
              simpa using hrp.symm
            subst this
            exact hlen
          | succ n =>
            exact hfirst n cp rp (by omega) (by simpa using hget) hrp

/-- An exhausted candidate search means no enumerated candidate matches the
target length. -/
theorem searchCandidates_no_match (rhythm_format : String) (target : Nat) :
    ∀ (cands : List (Option (List SyllableInfo))),
      searchCandidates rhythm_format target cands = some none →
      ∀ j cp rp, cands.get? j = some (some cp) →
        get_rhythmical_pattern cp rhythm_format = some rp →
        rp.length ≠ target := by
  intro cands
  induction cands with
  | nil =>
    intro h j cp rp hget
    simp at hget
  | cons oc rest ih =>
    intro h j cp rp hget hrp
    cases oc with
    | none => simp [searchCandidates] at h
    | some c0 =>
      rw [searchCandidates] at h
      cases hr0 : get_rhythmical_pattern c0 rhythm_format with
      | none => simp [hr0] at h
      | some r0 =>
        simp only [hr0] at h
        by_cases hlen : r0.length = target
        · rw [if_pos hlen] at h
          simp at h
        · rw [if_neg hlen] at h
          cases j with
          | zero =>
            have hcp : c0 = cp := by simpa using hget
            subst hcp
            have : rp = r0 := by
              rw [hr0] at hrp
              simpa using hrp.symm
            subst this
            exact hlen
          | succ n =>
            exact ih h n cp rp (by simpa using hget) hrp

/-- C1 (counterexample): on the line "sea osa" the natural rhythm has
length 3; with the explicit target list `[2]` the claim demands the line be
replaced by the first enumerated candidate of length 2 — such candidates
exist (the synalepha-then-sinaeresis order fuses "seao") — but
`get_scansion` only searches when the natural length is *less than* the
target, so it keeps the length-3 natural result. -/
theorem get_scansion_candidate_counterexample :
    ((get_scansion fdEmpty adEmpty
        [{ text := "sea".toList, is_alpha := true, pos_ := "VERB", tag_ := "" },
         { text := "osa".toList, is_alpha := true, pos_ := "NOUN", tag_ := "" }]
        "pattern" (some [2])).map (fun ls => ls.map fun l => l.rhythm.length)
      = some [3])
    ∧ ((generate_phonological_groups fdEmpty adEmpty
        [{ text := "sea".toList, is_alpha := true, pos_ := "VERB", tag_ := "" },
         { text := "osa".toList, is_alpha := true, pos_ := "NOUN", tag_ := "" }]).any
        fun oc => oc.any fun c =>
          (get_rhythmical_pattern c "pattern").any fun r => r.length = 2) = true := by
  constructor
  · decide
  · decide

/-- What one step of the final adjustment loop does to a line, given its
target. -/
theorem scansionAdjustLine_spec (fd : List Char → Option (List Char))
    (ad : List Char → Option (List (List (List Char))))
    (rhythm_format : String) (token_lines : List (List Token))
    (structure_length : List Nat) (i : Nat) (line : LineResult)
    (target : Nat) (b : LineResult)
    (hti : structure_length.get? i = some target)
    (hb : scansionAdjustLine fd ad rhythm_format token_lines structure_length
      (i, line) = some b) :
    (target ≤ line.rhythm.length → b = line)
    ∧ (line.rhythm.length < target →
        ∀ res, searchCandidates rhythm_format target
            (generate_phonological_groups fd ad (token_lines.getD i [])) =
              some res →
          (∀ c r, res = some (c, r) →
            b = { line with phonological_groups := c, rhythm := r })
          ∧ (res = none → b = line)) := by
  rw [scansionAdjustLine] at hb
  simp only [hti] at hb
  constructor
  · intro hge
    rw [if_neg (by simp; omega)] at hb
    simpa using hb.symm
  · intro hlt res hres
    rw [if_pos (by simpa using hlt)] at hb
    simp only [hres] at hb
    constructor
    · rintro c r rfl
      simpa using hb.symm
    · rintro rfl
      simpa using hb.symm

/-- C1 (amended): the candidate search of get_scansion runs only when the
natural rhythm length is strictly less than the line's target; in that case
the line is replaced by the first enumerated candidate whose rhythm length
equals the target (the returned candidate matches the target and every
earlier enumerated candidate does not), and is kept unchanged when no
candidate matches; when the natural length is greater than or equal to the
target the natural line is always kept. -/
theorem get_scansion_replaces_only_when_shorter
    (fd : List Char → Option (List Char))
    (ad : List Char → Option (List (List (List Char))))
    (tokens : List Token) (rhythm_format : String)
    (structure_length : List Nat) (lines out : List LineResult)
    (hnat : (splitLines tokens).mapM (buildLine fd ad rhythm_format) = some lines)
    (hout : get_scansion fd ad tokens rhythm_format (some structure_length) =
      some out)
    (i : Nat) (line : LineResult) (hline : lines.get? i = some line)
    (target : Nat) (hti : structure_length.get? i = some target) :
    (target ≤ line.rhythm.length → out.get? i = some line)
    ∧ (line.rhythm.length < target →
        ∀ res, searchCandidates rhythm_format target
            (generate_phonological_groups fd ad
              ((splitLines tokens).getD i [])) = some res →
          (∀ c r, res = some (c, r) →
            out.get? i = some { line with phonological_groups := c, rhythm := r }
            ∧ r.length = target)
          ∧ (res = none → out.get? i = some line))
    ∧ (∀ cands (c : List SyllableInfo) (r : Rhythm),
        searchCandidates rhythm_format target cands = some (some (c, r)) →
        r.length = target ∧ get_rhythmical_pattern c rhythm_format = some r ∧
        ∃ j, cands.get? j = some (some c) ∧
          ∀ jp cp rp, jp < j → cands.get? jp = some (some cp) →
            get_rhythmical_pattern cp rhythm_format = some rp →
            rp.length ≠ target)
    ∧ (∀ cands, searchCandidates rhythm_format target cands = some none →
        ∀ j cp rp, cands.get? j = some (some cp) →
          get_rhythmical_pattern cp rhythm_format = some rp →
          rp.length ≠ target) := by
  have hstep : ∃ b,
      scansionAdjustLine fd ad rhythm_format (splitLines tokens)
          structure_length (i, line) = some b ∧ out.get? i = some b := by
    have hout2 : lines.enum.mapM
        (scansionAdjustLine fd ad rhythm_format (splitLines tokens)
          structure_length) = some out := by
      rw [get_scansion.eq_def, hnat] at hout
      exact hout
    have henum : lines.enum.get? i = some (i, line) := by
      rw [List.get?_enum, hline]
      rfl
    exact mapM_option_get? _ lines.enum out hout2 i (i, line) henum
  obtain ⟨b, hb, houtb⟩ := hstep
  have hspec := scansionAdjustLine_spec fd ad rhythm_format (splitLines tokens)
    structure_length i line target b hti hb
  refine ⟨?_, ?_, ?_, ?_⟩
  · intro hge
    rw [hspec.1 hge] at houtb
    exact houtb
  · intro hlt res hres
    have h2 := hspec.2 hlt res hres
    constructor
    · rintro c r rfl
      rw [h2.1 c r rfl] at houtb
      refine ⟨houtb, ?_⟩
      exact (searchCandidates_first_match rhythm_format target _ c r hres).1
    · rintro rfl
      rw [h2.2 rfl] at houtb
      exact houtb
  · intro cands c r h
    exact searchCandidates_first_match rhythm_format target cands c r h
  · intro cands h
    exact searchCandidates_no_match rhythm_format target cands h

/-- C1 (witness for the amended claim): on "sea osa" with target 2 the
natural rhythm length 3 is not below the target, and the line is kept
unchanged. -/
theorem get_scansion_replaces_only_when_shorter_witness :
    2 ≤ seaOsaLine.rhythm.length ∧ seaOsaOut2.get? 0 = some seaOsaLine := by
  refine ⟨by decide, ?_⟩
  exact (get_scansion_replaces_only_when_shorter fdEmpty adEmpty seaOsaTokens
    "pattern" [2] seaOsaLines seaOsaOut2 (by decide) (by decide) 0 seaOsaLine
    (by decide) 2 (by decide)).1 (by decide)

/-- Under `GoodPositions` a scan never raises, leaves `skip_next` clear,
preserves `GoodPositions`, and produces an all-zero vector whenever it did
not shrink the syllable list. -/
theorem reducePass_good (t : LiaisonType)
    (bf : Option (LiaisonType → SyllableInfo → SyllableInfo → Bool)) :
    ∀ (n : Nat) (syls : List SyllableInfo) (ps : List Nat)
      (ns : Option SyllableInfo),
      syls.length ≤ n → GoodPositions syls ps →
      ∃ rs ri ns2, reducePass t bf syls ps ns false = some (rs, ri, ns2, false)
        ∧ GoodPositions rs ri
        ∧ (rs.length = 0 ↔ syls.length = 0)
        ∧ (rs.length = syls.length → ri.sum = 0) := by
  intro n
  induction n with
  | zero =>
    intro syls ps ns hlen hgood
    have hsyl : syls = [] := List.length_eq_zero.mp (Nat.le_zero.mp hlen)
    subst hsyl
    have hps : ps = [] := List.length_eq_zero.mp (by simpa using hgood.1)
    subst hps
    exact ⟨[], [], ns, by simp [reducePass], ⟨rfl, by simp, Or.inl rfl⟩,
      by simp, by simp⟩
  | succ m ih =>
    intro syls ps ns hlen hgood
    cases syls with
    | nil =>
      have hps : ps = [] := List.length_eq_zero.mp (by simpa using hgood.1)
      subst hps
      exact ⟨[], [], ns, by simp [reducePass], ⟨rfl, by simp, Or.inl rfl⟩,
        by simp, by simp⟩
    | cons s rest =>
      obtain ⟨haln, h01, hlz⟩ := hgood
      obtain ⟨p, ps', rfl⟩ : ∃ p ps', ps = p :: ps' := by
        cases ps with
        | nil => simp at haln
        | cons p ps' => exact ⟨p, ps', rfl⟩
      have haln' : ps'.length = rest.length := by simpa using haln
      have hlz' : ps' = [] ∨ ps'.getLast? = some 0 := by
        cases hpe : ps' with
        | nil => exact Or.inl rfl
        | cons q qs =>
          right
          rcases hlz with h | h
          · simp at h
          · rw [← h, hpe]
            rfl
      rw [reducePass]
      rw [if_neg (by simp)]
      simp only [List.head?_cons, List.tail_cons]
      cases hm : (p != 0 && !passBreakage t bf s rest.head?) with
      | false =>
        rw [Bool.cond_false]
        obtain ⟨rs', ri', ns2', hrec, hgood', hiff, hsum⟩ :=
          ih rest ps' (passNext rest.head? ns) (by simpa using hlen)
            ⟨haln', fun q hq => h01 q (List.mem_cons_of_mem _ hq), hlz'⟩
        refine ⟨s :: rs', 0 :: ri', ns2', ?_, ?_, ?_, ?_⟩
        · rw [hrec]
          rfl
        · refine ⟨by simpa using hgood'.1, ?_, ?_⟩
          · intro q hq
            rcases List.mem_cons.mp hq with h | h
            · omega
            · exact hgood'.2.1 q h
          · cases hri : ri' with
            | nil => right; rfl
            | cons a as =>
              right
              rcases hgood'.2.2 with h | h
              · rw [hri] at h; simp at h
              · rw [← h, hri]
                rfl
        · simp
        · intro heq
          have : rs'.length = rest.length := by simpa using heq
          have := hsum this
          simpa using this
      | true =>
        rw [Bool.cond_true]
        -- the final position carries no eligibility, so the merging
        -- element cannot be the last one
        cases rest with
        | nil =>
          exfalso
          have hps' : ps' = [] := List.length_eq_zero.mp (by simpa using haln')
          subst hps'
          rcases hlz with h | h
          · simp at h
          · have : p = 0 := by simpa using h
            subst this
            simp at hm
        | cons r2 rest' =>
          obtain ⟨p2, ps'', rfl⟩ : ∃ p2 ps'', ps' = p2 :: ps'' := by
            cases ps' with
            | nil => simp at haln'
            | cons p2 ps'' => exact ⟨p2, ps'', rfl⟩
          have haln'' : ps''.length = rest'.length := by simpa using haln'
          have hlz'' : ps'' = [] ∨ ps''.getLast? = some 0 := by
            cases hpe : ps'' with
            | nil => exact Or.inl rfl
            | cons q qs =>
              right
              rcases hlz' with h | h
              · simp at h
              · rw [← h, hpe]
                rfl
          obtain ⟨rs', ri', ns2', hrec, hgood', hiff, hsum⟩ :=
            ih rest' ps'' (some r2) (by simp at hlen; omega)
              ⟨haln'',
               fun q hq => h01 q
                 (List.mem_cons_of_mem _ (List.mem_cons_of_mem _ hq)), hlz''⟩
          have hskip : reducePass t bf (r2 :: rest') (p2 :: ps'')
              (some r2) true = some (rs', ri', ns2', false) := by
            rw [reducePass, if_pos rfl]
            simpa using hrec
          have hpn : passNext (some r2) ns = some r2 := rfl
          refine ⟨mergeLiaison t s r2 :: rs', p2 :: ri', ns2', ?_, ?_, ?_, ?_⟩
          · simp only [List.head?_cons, hpn]
            rw [hskip]
            rfl
          · refine ⟨by simp [hgood'.1, haln''], ?_, ?_⟩
            · intro q hq
              rcases List.mem_cons.mp hq with h | h
              · rw [h]
                exact h01 p2 (List.mem_cons_of_mem _ (List.mem_cons_self _ _))
              · exact hgood'.2.1 q h
            · cases hri : ri' with
              | nil =>
                right
                -- an empty produced vector means the recursion consumed no
                -- element, so everything after the merged pair is empty and
                -- p2 is the final (hence zero) position
                have hrs' : rs' = [] := by
                  have := hgood'.1
                  rw [hri] at this
                  exact List.length_eq_zero.mp (by simpa using this.symm)
                have hrest' : rest' = [] := by
                  rw [hrs'] at hiff
                  exact List.length_eq_zero.mp (by simpa using hiff.mp rfl)
                have hps'' : ps'' = [] := by
                  rw [hrest'] at haln''
                  exact List.length_eq_zero.mp (by simpa using haln'')
                have hp2 : p2 = 0 := by
                  subst hps''
                  rcases hlz with h | h
                  · simp at h
                  · simpa using h
                subst hp2
                rfl
              | cons a as =>
                right
                rcases hgood'.2.2 with h | h
                · rw [hri] at h; simp at h
                · rw [← h, hri]
                  rfl
          · simp
          · intro heq
            exfalso
            have h1 : rs'.length = rest'.length + 1 := by simpa using heq
            have h2 : rs'.length ≤ rest'.length :=
              (reducePass_length_sum t bf rest' ps'' (some r2) false
                rs' ri' ns2' false hrec).1
            omega

/-- A loop budget that succeeds keeps succeeding with the same value when
enlarged. -/
theorem reduceLoopFuel_mono (t : LiaisonType)
    (bf : Option (LiaisonType → SyllableInfo → SyllableInfo → Bool)) :
    ∀ (f f' : Nat) (syls : List SyllableInfo) (ps : List Nat)
      (ns : Option SyllableInfo) (sk : Bool)
      (x : Option (List SyllableInfo × List Nat)),
      f ≤ f' → reduceLoopFuel t bf f syls ps ns sk = some x →
      reduceLoopFuel t bf f' syls ps ns sk = some x := by
  intro f
  induction f with
  | zero =>
    intro f' syls ps ns sk x hle h
    rw [reduceLoopFuel] at h
    by_cases hsum : 0 < ps.sum
    · rw [if_pos hsum] at h
      simp at h
    · rw [if_neg hsum] at h
      cases f' with
      | zero => rw [reduceLoopFuel, if_neg hsum]; exact h
      | succ m => rw [reduceLoopFuel, if_neg hsum]; exact h
  | succ m ih =>
    intro f' syls ps ns sk x hle h
    obtain ⟨m', rfl⟩ : ∃ m', f' = m' + 1 := ⟨f' - 1, by omega⟩
    rw [reduceLoopFuel] at h ⊢
    by_cases hsum : 0 < ps.sum
    · rw [if_pos hsum] at h ⊢
      cases hp : reducePass t bf syls ps ns sk with
      | none => simp only [hp] at h ⊢; exact h
      | some r =>
        obtain ⟨rs, ri, ns2, sk2⟩ := r
        simp only [hp] at h ⊢
        exact ih m' rs ri ns2 sk2 x (by omega) h
    · rw [if_neg hsum] at h ⊢
      exact h

/-- A loop state whose position vector sums to zero exits immediately
under any budget. -/
theorem reduceLoopFuel_of_sum_zero (t : LiaisonType)
    (bf : Option (LiaisonType → SyllableInfo → SyllableInfo → Bool))
    (f : Nat) (syls : List SyllableInfo) (ps : List Nat)
    (ns : Option SyllableInfo) (sk : Bool) (h : ps.sum = 0) :
    reduceLoopFuel t bf f syls ps ns sk = some (some (syls, ps)) := by
  cases f with
  | zero => rw [reduceLoopFuel, if_neg (by omega)]
  | succ m => rw [reduceLoopFuel, if_neg (by omega)]

/-- C8: for every syllable sequence, every 0/1 eligibility vector of the
same length with no eligibility at the final position, and every breakage
predicate, the reduction loop terminates normally — without raising —
within a number of scans bounded by the input length: the budget
`syls.length` is never exhausted, and `reduceLoop` (the loop run with its
default ample budget) returns the same final state. -/
theorem reduce_loop_terminates_within_length (t : LiaisonType)
    (bf : Option (LiaisonType → SyllableInfo → SyllableInfo → Bool))
    (syls : List SyllableInfo) (ps : List Nat)
    (hgood : GoodPositions syls ps) :
    ∃ r, reduceLoopFuel t bf syls.length syls ps none false = some (some r)
      ∧ reduceLoop t bf syls ps none false = some r := by
  have main : ∀ (n : Nat) (syls : List SyllableInfo) (ps : List Nat)
      (ns : Option SyllableInfo),
      syls.length ≤ n → GoodPositions syls ps →
      ∃ r, reduceLoopFuel t bf syls.length syls ps ns false =
        some (some r) := by
    intro n
    induction n with
    | zero =>
      intro syls ps ns hlen hgood
      have hsyl : syls = [] := List.length_eq_zero.mp (Nat.le_zero.mp hlen)
      subst hsyl
      have hps : ps = [] := List.length_eq_zero.mp (by simpa using hgood.1)
      subst hps
      exact ⟨([], []), reduceLoopFuel_of_sum_zero t bf 0 [] [] ns false rfl⟩
    | succ m ih =>
      intro syls ps ns hlen hgood
      by_cases hsum : 0 < ps.sum
      · obtain ⟨s, rest, rfl⟩ : ∃ s rest, syls = s :: rest := by
          cases syls with
          | nil =>
            exfalso
            have : ps = [] :=
              List.length_eq_zero.mp (by simpa using hgood.1)
            subst this
            simp at hsum
          | cons s rest => exact ⟨s, rest, rfl⟩
        obtain ⟨rs, ri, ns2, hpass, hgood', hiff, hzero⟩ :=
          reducePass_good t bf (s :: rest).length (s :: rest) ps ns
            le_rfl hgood
        have hfuel : (s :: rest).length = rest.length + 1 := by simp
        rw [hfuel, reduceLoopFuel, if_pos hsum, hpass]
        rcases Nat.lt_or_ge rs.length (s :: rest).length with hlt | hge
        · obtain ⟨r, hr⟩ := ih rs ri ns2 (by simp at hlt hlen ⊢; omega) hgood'
          exact ⟨r, reduceLoopFuel_mono t bf rs.length rest.length rs ri ns2
            false (some r) (by simp at hlt; omega) hr⟩
        · have heq : rs.length = (s :: rest).length :=
            Nat.le_antisymm
              (reducePass_length_sum t bf (s :: rest) ps ns false
                rs ri ns2 false hpass).1 hge
          exact ⟨(rs, ri),
            reduceLoopFuel_of_sum_zero t bf rest.length rs ri ns2 false
              (hzero heq)⟩
      · refine ⟨(syls, ps),
          reduceLoopFuel_of_sum_zero t bf syls.length syls ps ns false
            (by omega)⟩
  obtain ⟨r, hr⟩ := main syls.length syls ps none le_rfl hgood
  refine ⟨r, hr, ?_⟩
  rw [reduceLoop]
  rw [reduceLoopFuel_mono t bf syls.length (syls.length + ps.sum + 1)
    syls ps none false (some r) (by omega) hr]

/-- C8 (witness): on the two syllables of "sea" with its sinaeresis
eligibility vector `[1, 0]`, the loop finishes within budget 2 and
`reduceLoop` returns the same state. -/
theorem reduce_loop_terminates_within_length_witness :
    GoodPositions
      [mkSyllable "se".toList true, mkSyllable "a".toList false] [1, 0]
    ∧ (reduceLoopFuel LiaisonType.sinaeresis none 2
        [mkSyllable "se".toList true, mkSyllable "a".toList false] [1, 0]
        none false).isSome := by
  constructor
  · refine ⟨by decide, by decide, ?_⟩
    right
    decide
  · obtain ⟨r, hr, -⟩ := reduce_loop_terminates_within_length
      LiaisonType.sinaeresis none
      [mkSyllable "se".toList true, mkSyllable "a".toList false] [1, 0]
      ⟨by decide, by decide, Or.inr (by decide)⟩
    rw [show ((2 : Nat) =
      [mkSyllable "se".toList true, mkSyllable "a".toList false].length)
      from rfl]
    rw [hr]
    rfl

/-- A successful scan over an aligned position vector leaves `skip_next`
clear, keeps the vectors aligned, never grows the list, and can only keep
the length by leaving the syllables untouched with an all-zero vector
(an aligned vector makes the stale final-position merge raise instead). -/
theorem reducePass_aligned (t : LiaisonType)
    (bf : Option (LiaisonType → SyllableInfo → SyllableInfo → Bool)) :
    ∀ (n : Nat) (syls : List SyllableInfo) (ps : List Nat)
      (ns : Option SyllableInfo) (rs : List SyllableInfo) (ri : List Nat)
      (ns2 : Option SyllableInfo) (sk2 : Bool),
      syls.length ≤ n → ps.length = syls.length →
      reducePass t bf syls ps ns false = some (rs, ri, ns2, sk2) →
      sk2 = false ∧ ri.length = rs.length ∧ rs.length ≤ syls.length ∧
        (rs.length = syls.length → rs = syls ∧ ri.sum = 0) := by
  intro n
  induction n with
  | zero =>
    intro syls ps ns rs ri ns2 sk2 hn haln h
    have hsyl : syls = [] := List.length_eq_zero.mp (Nat.le_zero.mp hn)
    subst hsyl
    simp only [reducePass, Option.some.injEq, Prod.mk.injEq] at h
    obtain ⟨h1, h2, -, h4⟩ := h
    subst h1; subst h2; subst h4
    simp
  | succ m ih =>
    intro syls ps ns rs ri ns2 sk2 hn haln h
    cases syls with
    | nil =>
      simp only [reducePass, Option.some.injEq, Prod.mk.injEq] at h
      obtain ⟨h1, h2, -, h4⟩ := h
      subst h1; subst h2; subst h4
      simp
    | cons s rest =>
      obtain ⟨p, ps', rfl⟩ : ∃ p ps', ps = p :: ps' := by
        cases ps with
        | nil => simp at haln
        | cons p ps' => exact ⟨p, ps', rfl⟩
      have haln' : ps'.length = rest.length := by simpa using haln
      rw [reducePass, if_neg (by simp)] at h
      simp only [List.head?_cons, List.tail_cons] at h
      cases hm : (p != 0 && !passBreakage t bf s rest.head?) with
      | false =>
        rw [hm, Bool.cond_false] at h
        rw [Option.map_eq_some'] at h
        obtain ⟨⟨rs', ri', nsx, skx⟩, hrec, heq⟩ := h
        simp only [Prod.mk.injEq] at heq
        obtain ⟨hrs, hri, -, hsk⟩ := heq
        subst hrs; subst hri; subst hsk
        obtain ⟨hskf, hlen2, hle, heqc⟩ :=
          ih rest ps' (passNext rest.head? ns) rs' ri' nsx skx
            (by simpa using hn) haln' hrec
        refine ⟨hskf, by simpa using hlen2, by simpa using hle, ?_⟩
        intro heq
        obtain ⟨hrs', hri'⟩ := heqc (by simpa using heq)
        subst hrs'
        simp [hri']
      | true =>
        rw [hm, Bool.cond_true] at h
        cases rest with
        | nil =>
          have hps' : ps' = [] := List.length_eq_zero.mp (by simpa using haln')
          subst hps'
          simp [passNext] at h
          cases ns with
          | none => simp at h
          | some partner => simp at h
        | cons r2 rest' =>
          obtain ⟨p2, ps'', rfl⟩ : ∃ p2 ps'', ps' = p2 :: ps'' := by
            cases ps' with
            | nil => simp at haln'
            | cons p2 ps'' => exact ⟨p2, ps'', rfl⟩
          simp only [List.head?_cons, passNext] at h
          rw [Option.map_eq_some'] at h
          obtain ⟨⟨rs', ri', nsx, skx⟩, hrec, heq⟩ := h
          simp only [Prod.mk.injEq] at heq
          obtain ⟨hrs, hri, -, hsk⟩ := heq
          subst hrs; subst hri; subst hsk
          rw [reducePass, if_pos rfl] at hrec
          simp only [List.tail_cons] at hrec
          obtain ⟨hskf, hlen2, hle, -⟩ :=
            ih rest' ps'' (some r2) rs' ri' nsx skx
              (by simp at hn; omega) (by simpa using haln') hrec
          refine ⟨hskf, by simpa using hlen2, by simp; omega, ?_⟩
          intro heq
          exfalso
          simp at heq
          omega

/-- A successful run of the reduction loop over an aligned position vector
never grows the list, keeps the final vector aligned, and keeps the length
only when it returns the input syllables untouched. -/
theorem reduceLoopFuel_aligned (t : LiaisonType)
    (bf : Option (LiaisonType → SyllableInfo → SyllableInfo → Bool)) :
    ∀ (f : Nat) (syls : List SyllableInfo) (ps : List Nat)
      (ns : Option SyllableInfo) (rs : List SyllableInfo) (ri : List Nat),
      ps.length = syls.length →
      reduceLoopFuel t bf f syls ps ns false = some (some (rs, ri)) →
      ri.length = rs.length ∧ rs.length ≤ syls.length ∧
        (rs.length = syls.length → rs = syls) := by
  intro f
  induction f with
  | zero =>
    intro syls ps ns rs ri haln h
    rw [reduceLoopFuel] at h
    by_cases hsum : 0 < ps.sum
    · rw [if_pos hsum] at h; simp at h
    · rw [if_neg hsum] at h
      simp only [Option.some.injEq, Prod.mk.injEq] at h
      obtain ⟨h1, h2⟩ := h
      subst h1; subst h2
      exact ⟨haln, le_rfl, fun _ => rfl⟩
  | succ m ih =>
    intro syls ps ns rs ri haln h
    rw [reduceLoopFuel] at h
    by_cases hsum : 0 < ps.sum
    · rw [if_pos hsum] at h
      cases hp : reducePass t bf syls ps ns false with
      | none => simp only [hp] at h; simp at h
      | some r =>
        obtain ⟨rs0, ri0, ns2, sk2⟩ := r
        simp only [hp] at h
        obtain ⟨hskf, hlen2, hle, heqc⟩ :=
          reducePass_aligned t bf syls.length syls ps ns rs0 ri0 ns2 sk2
            le_rfl haln hp
        subst hskf
        obtain ⟨hri, hle2, heq2⟩ := ih rs0 ri0 ns2 rs ri hlen2 h
        refine ⟨hri, le_trans hle2 hle, ?_⟩
        intro heq
        have h1 : rs0.length = syls.length := by omega
        obtain ⟨hrs0, -⟩ := heqc h1
        subst hrs0
        exact heq2 (by omega)
    · rw [if_neg hsum] at h
      simp only [Option.some.injEq, Prod.mk.injEq] at h
      obtain ⟨h1, h2⟩ := h
      subst h1; subst h2
      exact ⟨haln, le_rfl, fun _ => rfl⟩

/-- Successful cleaning preserves the number of groups and their texts. -/
theorem clean_phonological_groups_texts (t : LiaisonType) :
    ∀ (groups : List SyllableInfo) (ps : List Nat) (out : List SyllableInfo),
      clean_phonological_groups groups ps t = some out →
      out.length = groups.length ∧
        out.map (fun s => s.syllable) = groups.map (fun s => s.syllable) := by
  intro groups
  induction groups with
  | nil =>
    intro ps out h
    simp only [clean_phonological_groups, Option.some.injEq] at h
    subst h
    simp
  | cons g gs ih =>
    intro ps out h
    rw [clean_phonological_groups] at h
    by_cases hp : (liaisonProp t g).isSome
    · rw [if_pos hp] at h
      cases hh : ps.head? with
      | none =>
        simp only [hh] at h
        exact Option.noConfusion h
      | some p =>
        simp only [hh] at h
        rw [Option.map_eq_some'] at h
        obtain ⟨r, hr, heq⟩ := h
        subst heq
        obtain ⟨h1, h2⟩ := ih ps.tail r hr
        refine ⟨by simpa using h1, ?_⟩
        have : (setLiaisonProp t (p != 0) g).syllable = g.syllable := by
          cases t <;> rfl
        simp [this, h2]
    · rw [if_neg hp] at h
      rw [Option.map_eq_some'] at h
      obtain ⟨r, hr, heq⟩ := h
      subst heq
      obtain ⟨h1, h2⟩ := ih ps.tail r hr
      exact ⟨by simpa using h1, by simp [h2]⟩

/-- Cleaning a group list with an all-zero aligned vector leaves a list
without any `has_<liaison> = True` flag unchanged. -/
theorem clean_phonological_groups_id (t : LiaisonType) :
    ∀ (groups : List SyllableInfo) (ps : List Nat),
      ps.length = groups.length → (∀ p ∈ ps, p = 0) →
      (∀ g ∈ groups, liaisonProp t g ≠ some true) →
      clean_phonological_groups groups ps t = some groups := by
  intro groups
  induction groups with
  | nil =>
    intro ps haln h0 hprop
    rfl
  | cons g gs ih =>
    intro ps haln h0 hprop
    obtain ⟨p, ps', rfl⟩ : ∃ p ps', ps = p :: ps' := by
      cases ps with
      | nil => simp at haln
      | cons p ps' => exact ⟨p, ps', rfl⟩
    have hp0 : p = 0 := h0 p (List.mem_cons_self _ _)
    subst hp0
    have hrec := ih ps' (by simpa using haln)
      (fun q hq => h0 q (List.mem_cons_of_mem _ hq))
      (fun q hq => hprop q (List.mem_cons_of_mem _ hq))
    rw [clean_phonological_groups]
    by_cases hp : (liaisonProp t g).isSome
    · rw [if_pos hp]
      simp only [List.head?_cons, List.tail_cons, hrec, Option.map_some']
      have hfalse : liaisonProp t g = some false := by
        cases hv : liaisonProp t g with
        | none => rw [hv] at hp; simp at hp
        | some b =>
          cases b with
          | true => exact absurd hv (hprop g (List.mem_cons_self _ _))
          | false => rfl
      have : setLiaisonProp t (0 != 0) g = g := by
        cases t with
        | synalepha =>
          simp only [liaisonProp] at hfalse
          cases g
          simp_all [setLiaisonProp]
        | sinaeresis =>
          simp only [liaisonProp] at hfalse
          cases g
          simp_all [setLiaisonProp]
      rw [this]
    · rw [if_neg hp]
      simp only [List.tail_cons, hrec, Option.map_some']

/-- C7: with the default (flag-derived) positions, a successful run of
get_phonological_groups never returns more groups than input syllables,
and returns exactly as many precisely when every group text is the
untouched input syllable text (no merge happened); in particular a
sequence in which no position is eligible — no syllable carries a
`has_<liaison> = True` flag — is returned unchanged. -/
theorem get_phonological_groups_length_spec :
    (∀ (syls : List SyllableInfo) (t : LiaisonType) (out : List SyllableInfo),
      get_phonological_groups syls t none none = some out →
      out.length ≤ syls.length ∧
        (out.length = syls.length ↔
          out.map (fun s => s.syllable) = syls.map (fun s => s.syllable)))
    ∧ (∀ (syls : List SyllableInfo) (t : LiaisonType),
        (∀ s ∈ syls, liaisonProp t s ≠ some true) →
        get_phonological_groups syls t none none = some syls) := by
  constructor
  · intro syls t out h
    simp only [get_phonological_groups] at h
    cases hl : reduceLoop t none syls
        (syls.map fun s => pyBoolGetInt (liaisonProp t s)) none false with
    | none =>
      simp only [hl] at h
      exact Option.noConfusion h
    | some r =>
      obtain ⟨rs, ri⟩ := r
      simp only [hl] at h
      rw [reduceLoop] at hl
      cases hf : reduceLoopFuel t none
          (syls.length + (syls.map fun s => pyBoolGetInt (liaisonProp t s)).sum + 1)
          syls (syls.map fun s => pyBoolGetInt (liaisonProp t s)) none false with
      | none => rw [hf] at hl; exact absurd hl (by simp)
      | some rr =>
        rw [hf] at hl
        subst hl
        obtain ⟨hri, hle, heq⟩ :=
          reduceLoopFuel_aligned t none _ syls
            (syls.map fun s => pyBoolGetInt (liaisonProp t s)) none rs ri
            (by simp) hf
        obtain ⟨hlen, htexts⟩ := clean_phonological_groups_texts t rs ri out h
        constructor
        · omega
        · constructor
          · intro hlo
            have : rs = syls := heq (by omega)
            rw [htexts, this]
          · intro hmap
            have := congrArg List.length hmap
            simpa using this
  · intro syls t hprop
    have hP0 : ∀ p ∈ syls.map (fun s => pyBoolGetInt (liaisonProp t s)), p = 0 := by
      intro p hp
      rw [List.mem_map] at hp
      obtain ⟨s, hs, rfl⟩ := hp
      cases hv : liaisonProp t s with
      | none => rfl
      | some b =>
        cases b with
        | true => exact absurd hv (hprop s hs)
        | false => rfl
    have hsum : (syls.map fun s => pyBoolGetInt (liaisonProp t s)).sum = 0 :=
      List.sum_eq_zero hP0
    simp only [get_phonological_groups, reduceLoop,
      reduceLoopFuel_of_sum_zero t none _ syls _ none false hsum]
    exact clean_phonological_groups_id t syls _ (by simp) hP0 hprop

theorem get_phonological_groups_length_spec_witness :
    ([(⟨"sea".toList, true, none, none, some true, none, some [1]⟩ : SyllableInfo),
      ⟨"o".toList, true, none, none, none, none, none⟩,
      ⟨"sa".toList, false, none, none, some true, none, none⟩].length ≤
      [(⟨"se".toList, true, none, some true, none, none, none⟩ : SyllableInfo),
       ⟨"a".toList, false, some true, none, some true, none, none⟩,
       ⟨"o".toList, true, none, none, none, none, none⟩,
       ⟨"sa".toList, false, none, none, some true, none, none⟩].length)
    ∧ get_phonological_groups [mkSyllable "la".toList false]
        LiaisonType.synalepha none none = some [mkSyllable "la".toList false] :=
  ⟨(get_phonological_groups_length_spec.1
      [⟨"se".toList, true, none, some true, none, none, none⟩,
       ⟨"a".toList, false, some true, none, some true, none, none⟩,
       ⟨"o".toList, true, none, none, none, none, none⟩,
       ⟨"sa".toList, false, none, none, some true, none, none⟩]
      LiaisonType.sinaeresis
      [⟨"sea".toList, true, none, none, some true, none, some [1]⟩,
       ⟨"o".toList, true, none, none, none, none, none⟩,
       ⟨"sa".toList, false, none, none, some true, none, none⟩]
      (by decide)).1,
   get_phonological_groups_length_spec.2 [mkSyllable "la".toList false]
     LiaisonType.synalepha (by decide)⟩

theorem toLower_eq_hyphen (c : Char) (h : c.toLower = '-') : c = '-' := by
  unfold Char.toLower at h
  simp only [] at h
  split at h
  next hc =>
    have hv : (c.toNat + 32).isValidChar := Or.inl (by omega)
    have h2 := congrArg (fun ch : Char => ch.val.toNat) h
    rw [Char.ofNat, dif_pos hv] at h2
    simp only [Char.ofNatAux] at h2
    have h3 : c.toNat + 32 = 45 := by
      simpa [UInt32.toNat, BitVec.toNat_ofNatLt] using h2
    omega
  next => exact h

set_option maxHeartbeats 3200000 in
theorem pyLower_eq_hyphen (c : Char) (h : pyLower c = '-') : c = '-' := by
  unfold pyLower at h
  iterate 11
    (split at h
     next hc => exact absurd h (by decide))
  exact toLower_eq_hyphen c h

theorem inCls_hyphen (c : Char) (h : inCls "-" c = true) : c = '-' := by
  simp [inCls] at h
  exact pyLower_eq_hyphen c h

/-- Inserting a hyphen at a cut point does not change the non-hyphen
characters. -/
theorem filter_insert_hyphen (w : List Char) (n : Nat) :
    (w.take n ++ '-' :: w.drop n).filter (fun c => c ≠ '-') =
      w.filter (fun c => c ≠ '-') := by
  conv_rhs => rw [← List.take_append_drop n w]
  rw [List.filter_append, List.filter_append, List.filter_cons]
  simp

/-- Decomposing a list at a known entry. -/
theorem get_decomp (w : List Char) :
    ∀ (n : Nat) (c : Char), w.get? n = some c →
      w.take n ++ c :: w.drop (n + 1) = w := by
  induction w with
  | nil => intro n c h; simp at h
  | cons a rest ih =>
    intro n c h
    cases n with
    | zero =>
      simp only [List.get?_cons_zero, Option.some.injEq] at h
      subst h
      simp
    | succ m =>
      simp only [List.get?_cons_succ] at h
      simpa using ih m c h

/-- Deleting a hyphen does not change the non-hyphen characters. -/
theorem filter_delete_hyphen (w : List Char) (n : Nat)
    (h : w.get? n = some '-') :
    (w.take n ++ w.drop (n + 1)).filter (fun c => c ≠ '-') =
      w.filter (fun c => c ≠ '-') := by
  conv_rhs => rw [← get_decomp w n '-' h]
  rw [List.filter_append, List.filter_append, List.filter_cons]
  simp

/-- The syllabification scan only adds hyphens between the input characters. -/
theorem syllabifyLoop_filter (w : List Char) :
    (syllabifyLoop w).filter (fun c => c ≠ '-') = w.filter (fun c => c ≠ '-') := by
  induction w with
  | nil => rfl
  | cons c rest ih =>
    rw [syllabifyLoop]
    have hsep :
        ((match letterClustersSearch (c :: rest) with
          | some k => if k = 5 || k = 8 || k = 11 then [] else ['-']
          | none => ([] : List Char)).filter (fun c => c ≠ '-')) = [] := by
      cases letterClustersSearch (c :: rest) with
      | none => rfl
      | some k =>
        by_cases hk : (k = 5 || k = 8 || k = 11) = true
        · simp [hk]
        · simp only [Bool.not_eq_true] at hk
          simp [hk]
    rw [List.filter_cons, List.filter_append, hsep, ih]
    rw [List.filter_cons]
    simp only [List.nil_append]

/-- The presyllabification triple rewrites only insert hyphens. -/
theorem splitAfterLastTriple_filter (p1 p2 p3 : Char → Bool) (w : List Char) :
    (splitAfterLastTriple p1 p2 p3 w).filter (fun c => c ≠ '-') =
      w.filter (fun c => c ≠ '-') := by
  rw [splitAfterLastTriple]
  cases findLastTriple p1 p2 p3 w with
  | none => rfl
  | some i => exact filter_insert_hyphen w (i + 1)

/-- The prefix rewrites only insert hyphens. -/
theorem splitAfterWordStart_filter (start : List Char) (cls : Char → Bool)
    (w : List Char) :
    (splitAfterWordStart start cls w).filter (fun c => c ≠ '-') =
      w.filter (fun c => c ≠ '-') := by
  rw [splitAfterWordStart]
  by_cases hc : (pyLowerStr (w.take start.length) = start
      && (w.get? start.length).any cls) = true
  · rw [if_pos hc]
    exact filter_insert_hyphen w start.length
  · rw [if_neg hc]

/-- apply_exception_rules only inserts hyphens. -/
theorem apply_exception_rules_filter (word : List Char) :
    (apply_exception_rules word).filter (fun c => c ≠ '-') =
      word.filter (fun c => c ≠ '-') := by
  rw [apply_exception_rules]
  rw [splitAfterWordStart_filter, splitAfterWordStart_filter,
    splitAfterLastTriple_filter, splitAfterLastTriple_filter,
    splitAfterLastTriple_filter, splitAfterLastTriple_filter]

/-- The hiatus pass only inserts a hyphen. -/
theorem hiatusSub_filter (w : List Char) :
    (hiatusSub w).filter (fun c => c ≠ '-') = w.filter (fun c => c ≠ '-') := by
  rw [hiatusSub]
  cases (hyphenSplitCandidates w).findSome?
      (fun i => (hiatusTryAt w i).map fun g2 => i + g2) with
  | none => rfl
  | some cut => exact filter_insert_hyphen w cut

/-- The consonant-cluster pass deletes only a hyphen. -/
theorem clusterSub_filter (w : List Char) :
    (clusterSub w).filter (fun c => c ≠ '-') = w.filter (fun c => c ≠ '-') := by
  rw [clusterSub]
  cases hf : (hyphenSplitCandidates w).find? (clusterTryAt w) with
  | none => rfl
  | some i =>
    have ht : clusterTryAt w i = true := List.find?_some hf
    rw [clusterTryAt] at ht
    have hc : (w.get? (i + 1)).any (inCls "-") = true := by
      simp only [Bool.and_eq_true] at ht
      exact ht.1.1.2
    obtain ⟨c, hget, hcls⟩ : ∃ c, w.get? (i + 1) = some c ∧ inCls "-" c = true := by
      cases hg : w.get? (i + 1) with
      | none => rw [hg] at hc; simp at hc
      | some c => rw [hg] at hc; exact ⟨c, rfl, by simpa using hc⟩
    have : c = '-' := inCls_hyphen c hcls
    subst this
    exact filter_delete_hyphen w (i + 1) hget

/-- A successful backtracking search of the optional middle piece lands on a
position at which the tail test holds. -/
theorem diphthongMid_tail (tail : List Char → Nat → Bool) (w : List Char)
    (i0 v : Nat) (h : diphthongMid tail w i0 = some v) : tail w v = true := by
  rw [diphthongMid] at h
  by_cases hq : ((w.get? i0).any (inCls "q") && (w.get? (i0 + 1)).any (inCls "u")
      && tail w (i0 + 2)) = true
  · rw [if_pos hq] at h
    simp only [Option.some.injEq] at h
    subst h
    simp only [Bool.and_eq_true] at hq
    exact hq.2
  · rw [if_neg hq] at h
    cases hfind : (((List.range (((w.drop i0).takeWhile
        (inCls "bcdfghjklmñnpqrstvwxyz")).length)).reverse.map (· + 1)).find?
        (fun r => tail w (i0 + r))) with
    | some r =>
      rw [hfind] at h
      simp only [Option.some.injEq] at h
      subst h
      have := List.find?_some hfind
      simpa using this
    | none =>
      rw [hfind] at h
      by_cases ht : tail w i0 = true
      · rw [if_pos ht] at h
        simp only [Option.some.injEq] at h
        subst h
        exact ht
      · rw [if_neg ht] at h
        exact Option.noConfusion h

/-- The lowering-diphthong pass deletes only a hyphen. -/
theorem diphthongSub_lowering_filter (w : List Char) :
    (diphthongSub loweringTailAt w).filter (fun c => c ≠ '-') =
      w.filter (fun c => c ≠ '-') := by
  rw [diphthongSub]
  cases hf : (hyphenSplitCandidates w).findSome? (diphthongMid loweringTailAt w) with
  | none => rfl
  | some v =>
    obtain ⟨i0, -, hm⟩ := List.exists_of_findSome?_eq_some hf
    have ht := diphthongMid_tail loweringTailAt w i0 v hm
    rw [loweringTailAt] at ht
    simp only [Bool.and_eq_true] at ht
    have hc : (w.get? (v + 1)).any (inCls "-") = true := ht.1.1.1.2
    obtain ⟨c, hget, hcls⟩ : ∃ c, w.get? (v + 1) = some c ∧ inCls "-" c = true := by
      cases hg : w.get? (v + 1) with
      | none => rw [hg] at hc; simp at hc
      | some c => rw [hg] at hc; exact ⟨c, rfl, by simpa using hc⟩
    have : c = '-' := inCls_hyphen c hcls
    subst this
    exact filter_delete_hyphen w (v + 1) hget

/-- The raising-diphthong pass deletes only a hyphen. -/
theorem diphthongSub_raising_filter (w : List Char) :
    (diphthongSub raisingTailAt w).filter (fun c => c ≠ '-') =
      w.filter (fun c => c ≠ '-') := by
  rw [diphthongSub]
  cases hf : (hyphenSplitCandidates w).findSome? (diphthongMid raisingTailAt w) with
  | none => rfl
  | some v =>
    obtain ⟨i0, -, hm⟩ := List.exists_of_findSome?_eq_some hf
    have ht := diphthongMid_tail raisingTailAt w i0 v hm
    rw [raisingTailAt] at ht
    simp only [Bool.and_eq_true] at ht
    have hc : (w.get? (v + 1)).any (inCls "-") = true := ht.1.1.1.2
    obtain ⟨c, hget, hcls⟩ : ∃ c, w.get? (v + 1) = some c ∧ inCls "-" c = true := by
      cases hg : w.get? (v + 1) with
      | none => rw [hg] at hc; simp at hc
      | some c => rw [hg] at hc; exact ⟨c, rfl, by simpa using hc⟩
    have : c = '-' := inCls_hyphen c hcls
    subst this
    exact filter_delete_hyphen w (v + 1) hget

/-- apply_exception_rules_post only moves and removes hyphens. -/
theorem apply_exception_rules_post_filter (word : List Char) :
    (apply_exception_rules_post word).filter (fun c => c ≠ '-') =
      word.filter (fun c => c ≠ '-') := by
  rw [apply_exception_rules_post]
  split_ifs <;>
    simp only [hiatusSub_filter, clusterSub_filter,
      diphthongSub_lowering_filter, diphthongSub_raising_filter]

theorem splitHyphens_ne_nil (w : List Char) : splitHyphens w ≠ [] := by
  cases w with
  | nil => simp [splitHyphens]
  | cons c rest =>
    rw [splitHyphens]
    by_cases hc : c = '-'
    · rw [if_pos hc]; simp
    · rw [if_neg hc]
      cases splitHyphens rest <;> simp

/-- Splitting on hyphens, dropping empty pieces, and concatenating is the
same as dropping the hyphens. -/
theorem splitHyphens_flatten (w : List Char) :
    ((splitHyphens w).filter (fun s => s ≠ [])).flatten =
      w.filter (fun c => c ≠ '-') := by
  induction w with
  | nil => rfl
  | cons c rest ih =>
    rw [splitHyphens]
    by_cases hc : c = '-'
    · rw [if_pos hc]
      subst hc
      have h1 : (List.filter (fun s => s ≠ []) ([] :: splitHyphens rest)) =
          List.filter (fun s => s ≠ []) (splitHyphens rest) := by
        rw [List.filter_cons]
        simp
      rw [h1, ih, List.filter_cons]
      simp
    · rw [if_neg hc]
      cases hs : splitHyphens rest with
      | nil => exact absurd hs (splitHyphens_ne_nil rest)
      | cons g gs =>
        rw [hs] at ih
        have hbridge : ((List.filter (fun s => s ≠ []) (g :: gs)).flatten) =
            g ++ (List.filter (fun s => s ≠ []) gs).flatten := by
          rw [List.filter_cons]
          by_cases hg : g = []
          · subst hg; simp
          · simp [hg]
        rw [hbridge] at ih
        have h2 : (List.filter (fun s => s ≠ []) ((c :: g) :: gs)) =
            (c :: g) :: List.filter (fun s => s ≠ []) gs := by
          rw [List.filter_cons]
          simp
        have h3 : List.filter (fun x => x ≠ '-') (c :: rest) =
            c :: List.filter (fun x => x ≠ '-') rest := by
          rw [List.filter_cons]
          simp [hc]
        rw [h2, List.flatten_cons, h3, List.cons_append, ih]

/-- C6 counterexample: the word "a-a" is in neither lookup table, yet the
concatenation of its syllabify output is "aa", not the original word's
characters: hyphens in the input are treated as syllable separators and
dropped. -/
theorem syllabify_hyphen_counterexample :
    fdEmpty "a-a".toList = none ∧ adEmpty "a-a".toList = none ∧
    ((syllabify fdEmpty adEmpty "a-a".toList false).1).flatten = "aa".toList ∧
    "aa".toList ≠ "a-a".toList := by
  refine ⟨rfl, rfl, ?_, by decide⟩
  decide

/-- C6 (amended): for every word absent from the foreign-word table,
concatenating the syllables returned by syllabify yields the word's
non-hyphen characters in order; in particular the round-trip is exact for
every word that contains no hyphen. -/
theorem syllabify_round_trip (fd : List Char → Option (List Char))
    (ad : List Char → Option (List (List (List Char)))) (word : List Char)
    (hfd : fd word = none) :
    ((syllabify fd ad word false).1).flatten =
        word.filter (fun c => c ≠ '-')
      ∧ ('-' ∉ word → ((syllabify fd ad word false).1).flatten = word) := by
  have hmain : (syllabify fd ad word false).1 =
      (splitHyphens (apply_exception_rules_post (syllabifyLoop
        (apply_exception_rules word)))).filter (fun s => s ≠ []) := by
    rw [syllabify]
    simp only [hfd, Bool.false_and, Bool.false_eq_true, if_false]
  have h1 : ((syllabify fd ad word false).1).flatten =
      word.filter (fun c => c ≠ '-') := by
    rw [hmain, splitHyphens_flatten, apply_exception_rules_post_filter,
      syllabifyLoop_filter, apply_exception_rules_filter]
  refine ⟨h1, fun hno => ?_⟩
  rw [h1]
  rw [List.filter_eq_self]
  intro c hcmem
  simp only [decide_eq_true_eq]
  intro hceq
  exact hno (hceq ▸ hcmem)

theorem syllabify_round_trip_witness :
    fdEmpty "casa".toList = none ∧
    ((syllabify fdEmpty adEmpty "casa".toList false).1).flatten =
      "casa".toList.filter (fun c => c ≠ '-') ∧
    ((syllabify fdEmpty adEmpty "casa".toList false).1).flatten = "casa".toList :=
  ⟨rfl,
   (syllabify_round_trip fdEmpty adEmpty "casa".toList rfl).1,
   (syllabify_round_trip fdEmpty adEmpty "casa".toList rfl).2 (by decide)⟩

theorem buildOutSyllables_length (total : Nat) (sp : Int) :
    ∀ (index : Nat) (rest : List (List Char)),
      (buildOutSyllables total sp index rest).length = rest.length := by
  intro index rest
  induction rest generalizing index with
  | nil => rfl
  | cons syl rest ih =>
    rw [buildOutSyllables]
    simp [ih]

theorem buildOutSyllables_stressed (total : Nat) (sp : Int) :
    ∀ (rest : List (List Char)) (index i : Nat), i < rest.length →
      ((buildOutSyllables total sp index rest).get? i).map
          (fun s => s.is_stressed) =
        some (decide ((total : Int) - ((index : Int) + i) = -sp)) := by
  intro rest
  induction rest with
  | nil => intro index i h; simp at h
  | cons syl rest ih =>
    intro index i h
    cases i with
    | zero =>
      rw [buildOutSyllables]
      simp
    | succ j =>
      rw [buildOutSyllables]
      have hj : j < rest.length := by simpa using h
      have hrec := ih (index + 1) j hj
      simp only [List.get?_cons_succ]
      rw [hrec]
      congr 2
      push_cast
      ring_nf

theorem buildOutSyllables_count (total : Nat) (sp : Int) :
    ∀ (rest : List (List Char)) (index : Nat),
      ((buildOutSyllables total sp index rest).filter
          (fun s => s.is_stressed)).length =
        if ((total : Int) - index - rest.length < -sp ∧
            -sp ≤ (total : Int) - index) then 1 else 0 := by
  intro rest
  induction rest with
  | nil =>
    intro index
    rw [if_neg (by simp only [List.length_nil, Nat.cast_zero]; omega)]
    rfl
  | cons syl rest ih =>
    intro index
    rw [buildOutSyllables, List.filter_cons]
    by_cases hhead : ((total : Int) - index = -sp)
    · rw [if_pos (by simp [hhead])]
      simp only [List.length_cons]
      rw [ih (index + 1)]
      simp only [List.length_cons, Nat.cast_add, Nat.cast_one]
      split_ifs <;> omega
    · rw [if_neg (by simp [hhead])]
      rw [ih (index + 1)]
      simp only [List.length_cons, Nat.cast_add, Nat.cast_one]
      split_ifs <;> omega

/-- A nonempty hyphen-free word not in the foreign table gets at least one
syllable. -/
theorem syllabify_nonempty (fd : List Char → Option (List Char))
    (ad : List Char → Option (List (List (List Char)))) (word : List Char)
    (hw : word ≠ []) (hh : '-' ∉ word) (hfd : fd word = none) :
    (syllabify fd ad word false).1 ≠ [] := by
  have hmain : (syllabify fd ad word false).1 =
      (splitHyphens (apply_exception_rules_post (syllabifyLoop
        (apply_exception_rules word)))).filter (fun s => s ≠ []) := by
    rw [syllabify]
    simp only [hfd, Bool.false_and, Bool.false_eq_true, if_false]
  intro hempty
  have h1 : ((syllabify fd ad word false).1).flatten =
      word.filter (fun c => c ≠ '-') := by
    rw [hmain, splitHyphens_flatten, apply_exception_rules_post_filter,
      syllabifyLoop_filter, apply_exception_rules_filter]
  rw [hempty] at h1
  simp only [List.flatten_nil] at h1
  have h2 : word.filter (fun c => c ≠ '-') = word := by
    rw [List.filter_eq_self]
    intro c hcmem
    simp only [decide_eq_true_eq]
    intro hceq
    exact hh (hceq ▸ hcmem)
  rw [h2] at h1
  exact hw h1.symm

/-- The stress position computed by get_word_stress is 0 or designates a
syllable: 1 ≤ -position ≤ number of syllables. -/
theorem wordStressPosition_range (fd : List Char → Option (List Char))
    (ad : List Char → Option (List (List (List Char)))) (word : List Char)
    (pos : String) (tag : List (String × String))
    (hne : (syllabify fd ad word false).1 ≠ []) :
    wordStressPosition fd ad word pos tag false = 0 ∨
      (1 ≤ -(wordStressPosition fd ad word pos tag false) ∧
        -(wordStressPosition fd ad word pos tag false) ≤
          (((syllabify fd ad word false).1.length : Int))) := by
  have hlen : 1 ≤ (syllabify fd ad word false).1.length :=
    List.length_pos.mpr hne
  rw [wordStressPosition]
  simp only []
  by_cases h1 : (syllabify fd ad word false).1.length = 1
  · rw [if_pos h1]
    by_cases h2 : ((!UNSTRESSED_UNACCENTED_MONOSYLLABLES.contains
        (pyLowerStr ((syllabify fd ad word false).1.headD []))) &&
          (STRESSED_UNACCENTED_MONOSYLLABLES.contains
              (pyLowerStr ((syllabify fd ad word false).1.headD []))
            || !(["SCONJ", "CCONJ", "DET", "PRON", "ADP"].contains pos)
            || (pos == "PRON" && tagLookup tag "Case" == some "Nom")
            || (pos == "DET" && (tagLookup tag "Definite" == some "Dem"
                || tagLookup tag "Definite" == some "Ind"))
            || ["PROPN", "NUM", "NOUN", "VERB", "AUX", "ADV"].contains pos
            || (pos == "ADJ" && !(tagLookup tag "Poss" == some "Yes"))
            || (pos == "PRON" && (tagLookup tag "PronType" == some "Prs"
                || tagLookup tag "PronType" == some "Ind"))
            || (pos == "DET" && tagLookup tag "PronType" == some "Ind")
            || (pos == "ADJ")
            || ((pos == "PRON" || pos == "DET")
                && (tagLookup tag "PronType" == some "Exc"
                  || tagLookup tag "PronType" == some "Int"
                  || tagLookup tag "PronType" == some "Dem"))
            || POSSESSIVE_PRON.contains (pyLowerStr word))) = true
    · rw [if_pos h2]
      right
      rw [h1]
      norm_num
    · rw [if_neg h2]
      left
      rfl
  · rw [if_neg h1]
    by_cases h2 : (["INTJ", "PROPN", "NUM", "NOUN", "VERB", "AUX", "ADV"].contains pos
        || (pos == "ADJ" && !(POSSESSIVE_PRON_UNSTRESSED.contains (pyLowerStr word)))
        || (pos == "PRON" && (tagLookup tag "PronType" == some "Prs"
            || tagLookup tag "PronType" == some "Ind"))
        || (pos == "DET" && (tagLookup tag "PronType" == some "Dem"
            || tagLookup tag "PronType" == some "Ind"))
        || (pos == "DET" && tagLookup tag "Definite" == some "Ind")
        || (pos == "PRON" && tagLookup tag "Poss" == some "Yes")
        || ((pos == "PRON" || pos == "DET")
            && (tagLookup tag "PronType" == some "Exc"
              || tagLookup tag "PronType" == some "Int"
              || tagLookup tag "PronType" == some "Dem"))
        || POSSESSIVE_PRON.contains (pyLowerStr word)) = true
    · rw [if_pos h2]
      cases hacc : get_orthographic_accent (syllabify fd ad word false).1 with
      | some tilde =>
        simp only [hacc]
        rw [get_orthographic_accent, List.findIdx?_eq_some_iff_findIdx_eq] at hacc
        right
        constructor
        · omega
        · omega
      | none =>
        simp only [hacc]
        by_cases h3 : is_paroxytone (syllabify fd ad word false).1 = true
        · rw [if_pos h3]
          right
          constructor
          · norm_num
          · push_cast
            omega
        · rw [if_neg h3]
          right
          constructor
          · norm_num
          · push_cast
            omega
    · rw [if_neg h2]
      left
      rfl

/-- C9: for a nonempty hyphen-free word outside the foreign-word table, the
stress position returned by get_word_stress is 0 or a negative index
designating exactly one syllable (1 ≤ -position ≤ syllable count), a
syllable is stressed exactly when its distance from the end equals
-position, and hence exactly one syllable is stressed when the position is
nonzero and none when it is 0. -/
theorem get_word_stress_invariant (fd : List Char → Option (List Char))
    (ad : List Char → Option (List (List (List Char)))) (word : List Char)
    (pos : String) (tag : List (String × String))
    (hw : word ≠ []) (hh : '-' ∉ word) (hfd : fd word = none) :
    (get_word_stress fd ad word pos tag false).stress_position ≤ 0 ∧
    ((get_word_stress fd ad word pos tag false).stress_position = 0 ∨
      (1 ≤ -(get_word_stress fd ad word pos tag false).stress_position ∧
        -(get_word_stress fd ad word pos tag false).stress_position ≤
          (((get_word_stress fd ad word pos tag false).word.length : Int)))) ∧
    (∀ i, i < (get_word_stress fd ad word pos tag false).word.length →
      (((get_word_stress fd ad word pos tag false).word.get? i).map
          (fun s => s.is_stressed)) =
        some (decide
          ((((get_word_stress fd ad word pos tag false).word.length : Int)) - i =
            -(get_word_stress fd ad word pos tag false).stress_position))) ∧
    (((get_word_stress fd ad word pos tag false).word.filter
        (fun s => s.is_stressed)).length =
      if (get_word_stress fd ad word pos tag false).stress_position = 0
        then 0 else 1) := by
  have hr_word : (get_word_stress fd ad word pos tag false).word =
      buildOutSyllables (syllabify fd ad word false).1.length
        (wordStressPosition fd ad word pos tag false) 0
        (syllabify fd ad word false).1 := rfl
  have hr_sp : (get_word_stress fd ad word pos tag false).stress_position =
      wordStressPosition fd ad word pos tag false := rfl
  have hlen : (get_word_stress fd ad word pos tag false).word.length =
      (syllabify fd ad word false).1.length := by
    rw [hr_word, buildOutSyllables_length]
  have hrange := wordStressPosition_range fd ad word pos tag
    (syllabify_nonempty fd ad word hw hh hfd)
  refine ⟨?_, ?_, ?_, ?_⟩
  · rw [hr_sp]
    omega
  · rw [hr_sp, hlen]
    exact hrange
  · intro i hi
    rw [hlen] at hi
    rw [hr_word, hr_sp, buildOutSyllables_length]
    have := buildOutSyllables_stressed (syllabify fd ad word false).1.length
      (wordStressPosition fd ad word pos tag false)
      (syllabify fd ad word false).1 0 i hi
    simpa using this
  · rw [hr_word, hr_sp]
    rw [buildOutSyllables_count]
    by_cases hsp0 : wordStressPosition fd ad word pos tag false = 0
    · rw [if_pos hsp0, if_neg (by rw [hsp0]; simp)]
    · rw [if_neg hsp0]
      rcases hrange with h0 | ⟨ha, hb⟩
      · exact absurd h0 hsp0
      · rw [if_pos (by push_cast; omega)]

theorem get_word_stress_invariant_witness :
    "casa".toList ≠ [] ∧
    ((get_word_stress fdEmpty adEmpty "casa".toList "NOUN" [] false).stress_position ≤ 0 ∧
    ((get_word_stress fdEmpty adEmpty "casa".toList "NOUN" [] false).stress_position = 0 ∨
      (1 ≤ -(get_word_stress fdEmpty adEmpty "casa".toList "NOUN" [] false).stress_position ∧
        -(get_word_stress fdEmpty adEmpty "casa".toList "NOUN" [] false).stress_position ≤
          (((get_word_stress fdEmpty adEmpty "casa".toList "NOUN" [] false).word.length : Int)))) ∧
    (∀ i, i < (get_word_stress fdEmpty adEmpty "casa".toList "NOUN" [] false).word.length →
      (((get_word_stress fdEmpty adEmpty "casa".toList "NOUN" [] false).word.get? i).map
          (fun s => s.is_stressed)) =
        some (decide
          ((((get_word_stress fdEmpty adEmpty "casa".toList "NOUN" [] false).word.length : Int)) - i =
            -(get_word_stress fdEmpty adEmpty "casa".toList "NOUN" [] false).stress_position))) ∧
    (((get_word_stress fdEmpty adEmpty "casa".toList "NOUN" [] false).word.filter
        (fun s => s.is_stressed)).length =
      if (get_word_stress fdEmpty adEmpty "casa".toList "NOUN" [] false).stress_position = 0
        then 0 else 1)) :=
  ⟨by decide,
   get_word_stress_invariant fdEmpty adEmpty "casa".toList "NOUN" []
     (by decide) (by decide) rfl⟩

theorem scatterCombination_length (ps comb : List Nat) :
    (scatterCombination ps comb).length = ps.length := by
  induction ps generalizing comb with
  | nil => rfl
  | cons p rest ih =>
    rw [scatterCombination]
    by_cases hp : (p != 0) = true
    · rw [if_pos hp]
      simp [ih]
    · rw [if_neg hp]
      simp [ih]

theorem scatterCombination_getLast (ps comb : List Nat)
    (h : ps.getLast? = some 0) :
    (scatterCombination ps comb).getLast? = some 0 := by
  induction ps generalizing comb with
  | nil => simp at h
  | cons p rest ih =>
    cases hr : rest with
    | nil =>
      subst hr
      simp only [List.getLast?_singleton, Option.some.injEq] at h
      subst h
      rfl
    | cons q rest2 =>
      subst hr
      have hlast : (q :: rest2).getLast? = some 0 := by
        rw [List.getLast?_cons_cons] at h
        exact h
      rw [scatterCombination]
      by_cases hp : (p != 0) = true
      · rw [if_pos hp]
        cases hsc : scatterCombination (q :: rest2) comb.tail with
        | nil =>
          have := scatterCombination_length (q :: rest2) comb.tail
          rw [hsc] at this
          simp at this
        | cons y s2 =>
          rw [List.getLast?_cons_cons]
          have hrec := ih comb.tail hlast
          rw [hsc] at hrec
          exact hrec
      · rw [if_neg hp]
        cases hsc : scatterCombination (q :: rest2) comb with
        | nil =>
          have := scatterCombination_length (q :: rest2) comb
          rw [hsc] at this
          simp at this
        | cons y s2 =>
          rw [List.getLast?_cons_cons]
          have hrec := ih comb hlast
          rw [hsc] at hrec
          exact hrec

theorem scatterCombination_le_one (ps comb : List Nat)
    (hcomb : ∀ b ∈ comb, b ≤ 1) :
    ∀ q ∈ scatterCombination ps comb, q ≤ 1 := by
  induction ps generalizing comb with
  | nil => intro q hq; simp [scatterCombination] at hq
  | cons p rest ih =>
    intro q hq
    rw [scatterCombination] at hq
    by_cases hp : (p != 0) = true
    · rw [if_pos hp] at hq
      rcases List.mem_cons.mp hq with h | h
      · subst h
        cases hc : comb with
        | nil => simp [hc]
        | cons b bs =>
          have := hcomb b (by rw [hc]; exact List.mem_cons_self _ _)
          simp [hc, this]
      · exact ih comb.tail (fun b hb => hcomb b (List.mem_of_mem_tail hb)) q h
    · rw [if_neg hp] at hq
      rcases List.mem_cons.mp hq with h | h
      · omega
      · exact ih comb (fun b hb => hcomb b hb) q h

theorem prodOneZero_le_one :
    ∀ (n : Nat) (comb : List Nat), comb ∈ prodOneZero n → ∀ b ∈ comb, b ≤ 1 := by
  intro n
  induction n with
  | zero =>
    intro comb hc b hb
    simp [prodOneZero] at hc
    subst hc
    simp at hb
  | succ m ih =>
    intro comb hc b hb
    rw [prodOneZero] at hc
    simp only [List.mem_flatten, List.mem_map] at hc
    obtain ⟨l, ⟨bit, hbit, rfl⟩, hcl⟩ := hc
    simp only [List.mem_map] at hcl
    obtain ⟨rest, hrest, rfl⟩ := hcl
    rcases List.mem_cons.mp hb with h | h
    · subst h
      simp only [List.mem_cons, List.mem_singleton, List.not_mem_nil,
        or_false] at hbit
      rcases hbit with rfl | rfl <;> omega
    · exact ih rest hrest b h

/-- Every generated liaison-position vector is aligned with its syllables,
holds only 0/1 entries, and ends in 0 whenever the last syllable carries no
eligibility flag. -/
theorem generate_liaison_positions_good (syls : List SyllableInfo)
    (t : LiaisonType)
    (hlast : ∀ s, syls.getLast? = some s → liaisonProp t s = none) :
    ∀ v ∈ generate_liaison_positions syls t, GoodPositions syls v := by
  intro v hv
  rw [generate_liaison_positions] at hv
  simp only [List.mem_map] at hv
  obtain ⟨comb, hcomb, rfl⟩ := hv
  refine ⟨?_, ?_, ?_⟩
  · rw [scatterCombination_length]
    simp
  · exact scatterCombination_le_one _ comb
      (prodOneZero_le_one _ comb hcomb)
  · cases hg : syls.getLast? with
    | none =>
      left
      have hs : syls = [] := List.getLast?_eq_none_iff.mp hg
      subst hs
      rfl
    | some s =>
      right
      apply scatterCombination_getLast
      rw [List.getLast?_map, hg]
      simp [hlast s hg, pyBoolGetInt]

theorem clean_phonological_groups_total (t : LiaisonType) :
    ∀ (groups : List SyllableInfo) (ps : List Nat),
      groups.length ≤ ps.length →
      (clean_phonological_groups groups ps t).isSome := by
  intro groups
  induction groups with
  | nil => intro ps h; rfl
  | cons g gs ih =>
    intro ps h
    obtain ⟨p, ps', rfl⟩ : ∃ p ps', ps = p :: ps' := by
      cases ps with
      | nil => simp at h
      | cons p ps' => exact ⟨p, ps', rfl⟩
    rw [clean_phonological_groups]
    have hrec := ih ps' (by simpa using h)
    by_cases hp : (liaisonProp t g).isSome
    · rw [if_pos hp]
      simp only [List.head?_cons, List.tail_cons]
      cases hc : clean_phonological_groups gs ps' t with
      | none => rw [hc] at hrec; simp at hrec
      | some r => simp [hc]
    · rw [if_neg hp]
      simp only [List.tail_cons]
      cases hc : clean_phonological_groups gs ps' t with
      | none => rw [hc] at hrec; simp at hrec
      | some r => simp [hc]

/-- Under `GoodPositions` the reduction loop terminates without raising and
leaves an aligned state. -/
theorem reduceLoop_good_total (t : LiaisonType)
    (bf : Option (LiaisonType → SyllableInfo → SyllableInfo → Bool)) :
    ∀ (n : Nat) (syls : List SyllableInfo) (ps : List Nat)
      (ns : Option SyllableInfo),
      syls.length ≤ n → GoodPositions syls ps →
      ∃ rs ri, reduceLoopFuel t bf syls.length syls ps ns false =
          some (some (rs, ri)) ∧ GoodPositions rs ri := by
  intro n
  induction n with
  | zero =>
    intro syls ps ns hlen hgood
    have hsyl : syls = [] := List.length_eq_zero.mp (Nat.le_zero.mp hlen)
    subst hsyl
    have hps : ps = [] := List.length_eq_zero.mp (by simpa using hgood.1)
    subst hps
    exact ⟨[], [], reduceLoopFuel_of_sum_zero t bf 0 [] [] ns false rfl, hgood⟩
  | succ m ih =>
    intro syls ps ns hlen hgood
    by_cases hsum : 0 < ps.sum
    · obtain ⟨s, rest, rfl⟩ : ∃ s rest, syls = s :: rest := by
        cases syls with
        | nil =>
          exfalso
          have : ps = [] := List.length_eq_zero.mp (by simpa using hgood.1)
          subst this
          simp at hsum
        | cons s rest => exact ⟨s, rest, rfl⟩
      obtain ⟨rs, ri, ns2, hpass, hgood', hiff, hzero⟩ :=
        reducePass_good t bf (s :: rest).length (s :: rest) ps ns
          le_rfl hgood
      have hfuel : (s :: rest).length = rest.length + 1 := by simp
      rw [hfuel, reduceLoopFuel, if_pos hsum, hpass]
      rcases Nat.lt_or_ge rs.length (s :: rest).length with hlt | hge
      · obtain ⟨rs2, ri2, hr, hg2⟩ := ih rs ri ns2
          (by simp at hlt hlen ⊢; omega) hgood'
        exact ⟨rs2, ri2, reduceLoopFuel_mono t bf rs.length rest.length rs ri
          ns2 false (some (rs2, ri2)) (by simp at hlt; omega) hr, hg2⟩
      · have heq : rs.length = (s :: rest).length :=
          Nat.le_antisymm
            (reducePass_length_sum t bf (s :: rest) ps ns false
              rs ri ns2 false hpass).1 hge
        exact ⟨rs, ri,
          reduceLoopFuel_of_sum_zero t bf rest.length rs ri ns2 false
            (hzero heq), hgood'⟩
    · exact ⟨syls, ps,
        reduceLoopFuel_of_sum_zero t bf syls.length syls ps ns false
          (by omega), hgood⟩

/-- Under `GoodPositions` get_phonological_groups with an explicit position
vector never raises. -/
theorem get_phonological_groups_good_total (t : LiaisonType)
    (bf : Option (LiaisonType → SyllableInfo → SyllableInfo → Bool))
    (syls : List SyllableInfo) (ps : List Nat)
    (hgood : GoodPositions syls ps) :
    (get_phonological_groups syls t bf (some ps)).isSome := by
  obtain ⟨rs, ri, hr, hg⟩ :=
    reduceLoop_good_total t bf syls.length syls ps none le_rfl hgood
  have hloop : reduceLoop t bf syls ps none false = some (rs, ri) := by
    rw [reduceLoop]
    rw [reduceLoopFuel_mono t bf syls.length (syls.length + ps.sum + 1)
      syls ps none false (some (rs, ri)) (by omega) hr]
  rw [get_phonological_groups]
  simp only [hloop]
  exact clean_phonological_groups_total t rs ri (le_of_eq hg.1.symm)

theorem buildOutSyllables_syn_none (total : Nat) (sp : Int) :
    ∀ (rest : List (List Char)) (index : Nat) (s : SyllableInfo),
      s ∈ buildOutSyllables total sp index rest → s.has_synalepha = none := by
  intro rest
  induction rest with
  | nil => intro index s hs; simp [buildOutSyllables] at hs
  | cons syl rest ih =>
    intro index s hs
    rw [buildOutSyllables] at hs
    rcases List.mem_cons.mp hs with h | h
    · subst h; rfl
    · exact ih (index + 1) s h

theorem buildOutSyllables_last_sin (total : Nat) (sp : Int) :
    ∀ (rest : List (List Char)) (index : Nat) (s : SyllableInfo),
      (buildOutSyllables total sp index rest).getLast? = some s →
      s.has_sinaeresis = none := by
  intro rest
  induction rest with
  | nil => intro index s hs; simp [buildOutSyllables] at hs
  | cons syl rest ih =>
    intro index s hs
    cases hr : rest with
    | nil =>
      subst hr
      rw [buildOutSyllables] at hs
      simp only [buildOutSyllables, List.getLast?_singleton,
        Option.some.injEq] at hs
      subst hs
      rfl
    | cons syl2 rest2 =>
      subst hr
      rw [buildOutSyllables] at hs
      cases hb : buildOutSyllables total sp (index + 1) (syl2 :: rest2) with
      | nil =>
        have := buildOutSyllables_length total sp (index + 1) (syl2 :: rest2)
        rw [hb] at this
        simp at this
      | cons y s2 =>
        rw [hb, List.getLast?_cons_cons] at hs
        apply ih (index + 1) s
        rw [hb]
        exact hs

theorem markSynalephaRev_nonempty (es : List WordEntry)
    (h : ∀ syls sp, WordEntry.word syls sp ∈ es → syls ≠ []) :
    ∀ syls sp, WordEntry.word syls sp ∈
      markSynalephaOnLastWord.markSynalephaRev es → syls ≠ [] := by
  induction es with
  | nil => intro syls sp hs; simp [markSynalephaOnLastWord.markSynalephaRev] at hs
  | cons e rest ih =>
    intro syls sp hs
    cases e with
    | symbol txt =>
      rw [markSynalephaOnLastWord.markSynalephaRev] at hs
      rcases List.mem_cons.mp hs with hh | hh
      · exact absurd hh (by simp)
      · exact ih (fun a b hab => h a b (List.mem_cons_of_mem _ hab)) syls sp hh
    | word wsyls wsp =>
      rw [markSynalephaOnLastWord.markSynalephaRev] at hs
      rcases List.mem_cons.mp hs with hh | hh
      · have hw : wsyls ≠ [] := h wsyls wsp (List.mem_cons_self _ _)
        simp only [WordEntry.word.injEq] at hh
        obtain ⟨h1, -⟩ := hh
        subst h1
        obtain ⟨x, hx⟩ : ∃ x, wsyls.getLast? = some x := by
          cases hg : wsyls.getLast? with
          | none => exact absurd (List.getLast?_eq_none_iff.mp hg) hw
          | some x => exact ⟨x, rfl⟩
        rw [hx]
        simp
      · exact h syls sp (List.mem_cons_of_mem _ hh)

theorem markSynalephaOnLastWord_nonempty (es : List WordEntry)
    (h : ∀ syls sp, WordEntry.word syls sp ∈ es → syls ≠ []) :
    ∀ syls sp, WordEntry.word syls sp ∈ markSynalephaOnLastWord es →
      syls ≠ [] := by
  intro syls sp hs
  rw [markSynalephaOnLastWord] at hs
  rw [List.mem_reverse] at hs
  exact markSynalephaRev_nonempty es.reverse
    (fun a b hab => h a b (by rw [← List.mem_reverse]; exact hab)) syls sp hs

theorem lastWordSyllables_append_symbol (es : List WordEntry) (txt : List Char) :
    lastWordSyllables (es ++ [WordEntry.symbol txt]) = lastWordSyllables es := by
  rw [lastWordSyllables, lastWordSyllables]
  rw [List.reverse_append]
  simp [List.find?]

theorem lastWordSyllables_append_word (es : List WordEntry)
    (syls : List SyllableInfo) (sp : Int) :
    lastWordSyllables (es ++ [WordEntry.word syls sp]) = some syls := by
  rw [lastWordSyllables]
  rw [List.reverse_append]
  simp [List.find?]

theorem syllabify_fst_alt (fd : List Char → Option (List Char))
    (ad : List Char → Option (List (List (List Char)))) (word : List Char)
    (alt : Bool) (had : ad (pyLowerStr word) = none) :
    (syllabify fd ad word alt).1 = (syllabify fd ad word false).1 := by
  rw [syllabify, syllabify]
  simp [had]

theorem get_word_stress_word_nonempty (fd : List Char → Option (List Char))
    (ad : List Char → Option (List (List (List Char)))) (word : List Char)
    (pos : String) (tag : List (String × String)) (alt : Bool)
    (hw : word ≠ []) (hh : '-' ∉ word) (hfd : fd word = none)
    (had : ad (pyLowerStr word) = none) :
    (get_word_stress fd ad word pos tag alt).word ≠ [] := by
  have hword : (get_word_stress fd ad word pos tag alt).word =
      buildOutSyllables (syllabify fd ad word alt).1.length
        (wordStressPosition fd ad word pos tag alt) 0
        (syllabify fd ad word alt).1 := rfl
  rw [hword]
  intro hempty
  have := buildOutSyllables_length (syllabify fd ad word alt).1.length
    (wordStressPosition fd ad word pos tag alt) 0 (syllabify fd ad word alt).1
  rw [hempty] at this
  have hne : (syllabify fd ad word alt).1 ≠ [] := by
    rw [syllabify_fst_alt fd ad word alt had]
    exact syllabify_nonempty fd ad word hw hh hfd
  exact hne (List.length_eq_zero.mp this.symm)

theorem get_word_stress_word_last (fd : List Char → Option (List Char))
    (ad : List Char → Option (List (List (List Char)))) (word : List Char)
    (pos : String) (tag : List (String × String)) (alt : Bool) (s : SyllableInfo)
    (hs : (get_word_stress fd ad word pos tag alt).word.getLast? = some s) :
    s.has_synalepha = none ∧ s.has_sinaeresis = none := by
  have hword : (get_word_stress fd ad word pos tag alt).word =
      buildOutSyllables (syllabify fd ad word alt).1.length
        (wordStressPosition fd ad word pos tag alt) 0
        (syllabify fd ad word alt).1 := rfl
  rw [hword] at hs
  constructor
  · exact buildOutSyllables_syn_none _ _ _ 0 s
      (List.mem_of_getLast?_eq_some hs)
  · exact buildOutSyllables_last_sin _ _ _ 0 s hs

/-- The get_words accumulator invariant: every word entry has at least one
syllable, and the most recent word entry's final syllable carries no
liaison-eligibility flag. -/
theorem get_words_invariant (fd : List Char → Option (List Char))
    (ad : List Char → Option (List (List (List Char))))
    (tokens : List Token) (asf : Bool)
    (htok : ∀ tok ∈ tokens, tok.is_alpha = true →
      tok.text ≠ [] ∧ '-' ∉ tok.text ∧ fd tok.text = none ∧
        ad (pyLowerStr tok.text) = none) :
    (∀ syls sp, WordEntry.word syls sp ∈ get_words fd ad tokens asf →
      syls ≠ []) ∧
    (∀ syls, lastWordSyllables (get_words fd ad tokens asf) = some syls →
      ∀ s, syls.getLast? = some s →
        s.has_synalepha = none ∧ s.has_sinaeresis = none) := by
  have main : ∀ (toks : List Token) (acc : List WordEntry),
      (∀ tok ∈ toks, tok.is_alpha = true →
        tok.text ≠ [] ∧ '-' ∉ tok.text ∧ fd tok.text = none ∧
          ad (pyLowerStr tok.text) = none) →
      ((∀ syls sp, WordEntry.word syls sp ∈ acc → syls ≠ []) ∧
        (∀ syls, lastWordSyllables acc = some syls →
          ∀ s, syls.getLast? = some s →
            s.has_synalepha = none ∧ s.has_sinaeresis = none)) →
      ((∀ syls sp, WordEntry.word syls sp ∈
          toks.foldl (getWordsStep fd ad asf) acc → syls ≠ []) ∧
        (∀ syls, lastWordSyllables (toks.foldl (getWordsStep fd ad asf) acc) =
            some syls →
          ∀ s, syls.getLast? = some s →
            s.has_synalepha = none ∧ s.has_sinaeresis = none)) := by
    intro toks
    induction toks with
    | nil => intro acc _ hinv; exact hinv
    | cons tok rest ih =>
      intro acc hyp hinv
      rw [List.foldl_cons]
      apply ih
      · intro tk htk
        exact hyp tk (List.mem_cons_of_mem _ htk)
      · by_cases halpha : tok.is_alpha = true
        · obtain ⟨hwne, hhy, hfdt, hadt⟩ :=
            hyp tok (List.mem_cons_self _ _) halpha
          have hstep : getWordsStep fd ad asf acc tok =
              (match get_last_syllable acc,
                  (get_word_stress fd ad tok.text
                    (match splitTagMarker tok.tag_.toList with
                      | some (p, t) => (String.mk p, String.mk t)
                      | none => (tok.pos_, tok.tag_)).1
                    (spacy_tag_to_dict
                      (match splitTagMarker tok.tag_.toList with
                        | some (p, t) => (String.mk p, String.mk t)
                        | none => (tok.pos_, tok.tag_)).2) asf).word.head? with
                | some first_syllable, some second_syllable =>
                  if have_prosodic_liaison first_syllable second_syllable then
                    markSynalephaOnLastWord acc
                  else acc
                | _, _ => acc) ++
              [WordEntry.word
                (get_word_stress fd ad tok.text
                  (match splitTagMarker tok.tag_.toList with
                    | some (p, t) => (String.mk p, String.mk t)
                    | none => (tok.pos_, tok.tag_)).1
                  (spacy_tag_to_dict
                    (match splitTagMarker tok.tag_.toList with
                      | some (p, t) => (String.mk p, String.mk t)
                      | none => (tok.pos_, tok.tag_)).2) asf).word
                (get_word_stress fd ad tok.text
                  (match splitTagMarker tok.tag_.toList with
                    | some (p, t) => (String.mk p, String.mk t)
                    | none => (tok.pos_, tok.tag_)).1
                  (spacy_tag_to_dict
                    (match splitTagMarker tok.tag_.toList with
                      | some (p, t) => (String.mk p, String.mk t)
                      | none => (tok.pos_, tok.tag_)).2) asf).stress_position] := by
            rw [getWordsStep, if_pos halpha]
          set sw := get_word_stress fd ad tok.text
            (match splitTagMarker tok.tag_.toList with
              | some (p, t) => (String.mk p, String.mk t)
              | none => (tok.pos_, tok.tag_)).1
            (spacy_tag_to_dict
              (match splitTagMarker tok.tag_.toList with
                | some (p, t) => (String.mk p, String.mk t)
                | none => (tok.pos_, tok.tag_)).2) asf with hsw
          have hswne : sw.word ≠ [] := by
            rw [hsw]
            exact get_word_stress_word_nonempty fd ad tok.text _ _ asf
              hwne hhy hfdt hadt
          have hacc2 : ∀ (acc2 : List WordEntry),
              (acc2 = acc ∨ acc2 = markSynalephaOnLastWord acc) →
              (∀ syls sp, WordEntry.word syls sp ∈
                  acc2 ++ [WordEntry.word sw.word sw.stress_position] →
                syls ≠ []) ∧
              (∀ syls, lastWordSyllables
                  (acc2 ++ [WordEntry.word sw.word sw.stress_position]) =
                  some syls →
                ∀ s, syls.getLast? = some s →
                  s.has_synalepha = none ∧ s.has_sinaeresis = none) := by
            intro acc2 hcase
            constructor
            · intro syls sp hmem
              rcases List.mem_append.mp hmem with hm | hm
              · rcases hcase with rfl | rfl
                · exact hinv.1 syls sp hm
                · exact markSynalephaOnLastWord_nonempty acc hinv.1 syls sp hm
              · simp only [List.mem_singleton, WordEntry.word.injEq] at hm
                obtain ⟨h1, -⟩ := hm
                subst h1
                exact hswne
            · intro syls hlw s hs
              rw [lastWordSyllables_append_word] at hlw
              simp only [Option.some.injEq] at hlw
              subst hlw
              exact get_word_stress_word_last fd ad tok.text _ _ asf s
                (by rw [← hsw]; exact hs)
          rw [hstep]
          apply hacc2
          cases get_last_syllable acc with
          | none => left; rfl
          | some fs =>
            cases hhd : sw.word.head? with
            | none => left; rfl
            | some ss =>
              by_cases hpl : have_prosodic_liaison fs ss = true
              · right; simp [hpl]
              · left; simp [hpl]
        · have hstep : getWordsStep fd ad asf acc tok =
              acc ++ [WordEntry.symbol tok.text] := by
            rw [getWordsStep, if_neg halpha]
          rw [hstep]
          constructor
          · intro syls sp hmem
            rcases List.mem_append.mp hmem with hm | hm
            · exact hinv.1 syls sp hm
            · simp at hm
          · intro syls hlw
            rw [lastWordSyllables_append_symbol] at hlw
            exact hinv.2 syls hlw
  rw [get_words]
  apply main tokens [] htok
  constructor
  · intro syls sp hmem; simp at hmem
  · intro syls hlw; simp [lastWordSyllables, List.find?] at hlw

theorem lastWordSyllables_cons_symbol (txt : List Char)
    (rest : List WordEntry) :
    lastWordSyllables (WordEntry.symbol txt :: rest) =
      lastWordSyllables rest := by
  rw [lastWordSyllables, lastWordSyllables, List.reverse_cons, List.find?_append]
  simp [List.find?]

/-- The concatenated word-end-marked syllables of a word list end with the
final word's final syllable, `is_word_end` set. -/
theorem get_syllables_word_end_last (words : List WordEntry)
    (hne : ∀ syls sp, WordEntry.word syls sp ∈ words → syls ≠ []) :
    (get_syllables_word_end words = [] ∧ lastWordSyllables words = none) ∨
    (∃ syls s, lastWordSyllables words = some syls ∧ syls.getLast? = some s ∧
      (get_syllables_word_end words).getLast? =
        some { s with is_word_end := some true }) := by
  induction words with
  | nil => left; exact ⟨rfl, rfl⟩
  | cons w rest ih =>
    have ihr := ih (fun syls sp hm => hne syls sp (List.mem_cons_of_mem _ hm))
    cases w with
    | symbol txt =>
      have hg : get_syllables_word_end (WordEntry.symbol txt :: rest) =
          get_syllables_word_end rest := by
        rw [get_syllables_word_end, get_syllables_word_end]
        rfl
      rw [hg, lastWordSyllables_cons_symbol]
      exact ihr
    | word syls sp =>
      have hsne : syls ≠ [] := hne syls sp (List.mem_cons_self _ _)
      obtain ⟨s0, hs0⟩ : ∃ s0, syls.getLast? = some s0 := by
        cases hg : syls.getLast? with
        | none => exact absurd (List.getLast?_eq_none_iff.mp hg) hsne
        | some s0 => exact ⟨s0, rfl⟩
      have hg : get_syllables_word_end (WordEntry.word syls sp :: rest) =
          (syls.dropLast ++ [{ s0 with is_word_end := some true }]) ++
            get_syllables_word_end rest := by
        rw [get_syllables_word_end, get_syllables_word_end]
        simp only [List.map_cons, List.flatten_cons, hs0]
      right
      rcases ihr with ⟨hrest_empty, hrest_none⟩ | ⟨syls2, s2, hlw2, hs2, hgl2⟩
      · refine ⟨syls, s0, ?_, hs0, ?_⟩
        · have hfind : rest.reverse.find? (fun e =>
              match e with
              | WordEntry.word _ _ => true
              | WordEntry.symbol _ => false) = none := by
            cases hf : rest.reverse.find? (fun e =>
                match e with
                | WordEntry.word _ _ => true
                | WordEntry.symbol _ => false) with
            | none => rfl
            | some e =>
              exfalso
              have hp := List.find?_some hf
              cases e with
              | word a b =>
                rw [lastWordSyllables, hf] at hrest_none
                simp at hrest_none
              | symbol a => simp at hp
          rw [lastWordSyllables, List.reverse_cons, List.find?_append, hfind]
          simp [List.find?]
        · rw [hg, hrest_empty, List.append_nil, List.getLast?_concat]
      · refine ⟨syls2, s2, ?_, hs2, ?_⟩
        · obtain ⟨sp2, hfind⟩ : ∃ sp2, rest.reverse.find? (fun e =>
              match e with
              | WordEntry.word _ _ => true
              | WordEntry.symbol _ => false) = some (WordEntry.word syls2 sp2) := by
            rw [lastWordSyllables] at hlw2
            cases hf : rest.reverse.find? (fun e =>
                match e with
                | WordEntry.word _ _ => true
                | WordEntry.symbol _ => false) with
            | none => rw [hf] at hlw2; simp at hlw2
            | some e =>
              rw [hf] at hlw2
              cases e with
              | word a b =>
                simp only [Option.some.injEq] at hlw2
                subst hlw2
                exact ⟨b, rfl⟩
              | symbol a => simp at hlw2
          rw [lastWordSyllables, List.reverse_cons, List.find?_append, hfind]
          rfl
        · have hgne : get_syllables_word_end rest ≠ [] := by
            intro hempty
            rw [hempty] at hgl2
            simp at hgl2
          rw [hg, List.getLast?_append]
          rw [hgl2]
          rfl

theorem pyBoolGetInt_le_one (o : Option Bool) : pyBoolGetInt o ≤ 1 := by
  cases o with
  | none => exact Nat.zero_le 1
  | some b => cases b <;> simp [pyBoolGetInt]

/-- C10 (amended): in every line built by get_words and
get_syllables_word_end from nonempty hyphen-free alphabetic tokens outside
the lookup tables, the final syllable carries neither a has_synalepha nor a
has_sinaeresis flag; consequently the default flag-derived position vector
and every generated liaison-position vector end in 0 (and are aligned 0/1
vectors), and get_phonological_groups raises no exception — it never reads
a successor entry past the end — when run with the default positions or
with any generated vector applied to the very syllables it was generated
for.  (The pipeline's second liaison passes apply vectors generated from
the pre-reduction syllables to the already-reduced groups; those
misaligned runs are NOT covered and can in fact raise, see the
counterexample.) -/
theorem line_last_syllable_safety (fd : List Char → Option (List Char))
    (ad : List Char → Option (List (List (List Char))))
    (tokens : List Token) (asf : Bool)
    (htok : ∀ tok ∈ tokens, tok.is_alpha = true →
      tok.text ≠ [] ∧ '-' ∉ tok.text ∧ fd tok.text = none ∧
        ad (pyLowerStr tok.text) = none) :
    (∀ s, (get_syllables_word_end (get_words fd ad tokens asf)).getLast? =
        some s → s.has_synalepha = none ∧ s.has_sinaeresis = none) ∧
    (∀ t : LiaisonType,
      get_syllables_word_end (get_words fd ad tokens asf) = [] ∨
      ((get_syllables_word_end (get_words fd ad tokens asf)).map
          (fun s => pyBoolGetInt (liaisonProp t s))).getLast? = some 0) ∧
    (∀ t : LiaisonType, ∀ v ∈ generate_liaison_positions
        (get_syllables_word_end (get_words fd ad tokens asf)) t,
      GoodPositions (get_syllables_word_end (get_words fd ad tokens asf)) v) ∧
    (∀ (t : LiaisonType)
        (bf : Option (LiaisonType → SyllableInfo → SyllableInfo → Bool)),
      (get_phonological_groups
        (get_syllables_word_end (get_words fd ad tokens asf)) t bf
          none).isSome) ∧
    (∀ (t : LiaisonType)
        (bf : Option (LiaisonType → SyllableInfo → SyllableInfo → Bool)),
      ∀ v ∈ generate_liaison_positions
          (get_syllables_word_end (get_words fd ad tokens asf)) t,
        (get_phonological_groups
          (get_syllables_word_end (get_words fd ad tokens asf)) t bf
            (some v)).isSome) := by
  obtain ⟨hwn, hlastw⟩ := get_words_invariant fd ad tokens asf htok
  have hA : ∀ s, (get_syllables_word_end (get_words fd ad tokens asf)).getLast? =
      some s → s.has_synalepha = none ∧ s.has_sinaeresis = none := by
    intro s hs
    rcases get_syllables_word_end_last (get_words fd ad tokens asf) hwn with
      ⟨hempty, -⟩ | ⟨syls, s0, hlw, hs0, hgl⟩
    · rw [hempty] at hs
      simp at hs
    · rw [hgl] at hs
      simp only [Option.some.injEq] at hs
      subst hs
      have := hlastw syls hlw s0 hs0
      exact ⟨this.1, this.2⟩
  have hflags : ∀ (t : LiaisonType) (s : SyllableInfo),
      (get_syllables_word_end (get_words fd ad tokens asf)).getLast? = some s →
      liaisonProp t s = none := by
    intro t s hs
    cases t with
    | synalepha => exact (hA s hs).1
    | sinaeresis => exact (hA s hs).2
  have hB : ∀ t : LiaisonType,
      get_syllables_word_end (get_words fd ad tokens asf) = [] ∨
      ((get_syllables_word_end (get_words fd ad tokens asf)).map
          (fun s => pyBoolGetInt (liaisonProp t s))).getLast? = some 0 := by
    intro t
    cases hg : (get_syllables_word_end (get_words fd ad tokens asf)).getLast? with
    | none => left; exact List.getLast?_eq_none_iff.mp hg
    | some s =>
      right
      rw [List.getLast?_map, hg]
      simp [hflags t s hg, pyBoolGetInt]
  have hC : ∀ t : LiaisonType, ∀ v ∈ generate_liaison_positions
      (get_syllables_word_end (get_words fd ad tokens asf)) t,
      GoodPositions (get_syllables_word_end (get_words fd ad tokens asf)) v :=
    fun t => generate_liaison_positions_good _ t (hflags t)
  have hGoodDefault : ∀ t : LiaisonType,
      GoodPositions (get_syllables_word_end (get_words fd ad tokens asf))
        ((get_syllables_word_end (get_words fd ad tokens asf)).map
          (fun s => pyBoolGetInt (liaisonProp t s))) := by
    intro t
    refine ⟨by simp, ?_, ?_⟩
    · intro p hp
      rw [List.mem_map] at hp
      obtain ⟨s, -, rfl⟩ := hp
      exact pyBoolGetInt_le_one _
    · rcases hB t with h | h
      · left; rw [h]; rfl
      · right; exact h
  refine ⟨hA, hB, hC, ?_, ?_⟩
  · intro t bf
    have heq : get_phonological_groups
        (get_syllables_word_end (get_words fd ad tokens asf)) t bf none =
      get_phonological_groups
        (get_syllables_word_end (get_words fd ad tokens asf)) t bf
        (some ((get_syllables_word_end (get_words fd ad tokens asf)).map
          (fun s => pyBoolGetInt (liaisonProp t s)))) := rfl
    rw [heq]
    exact get_phonological_groups_good_total t bf _ _ (hGoodDefault t)
  · intro t bf v hv
    exact get_phonological_groups_good_total t bf _ v (hC t v hv)

set_option maxHeartbeats 3200000 in
/-- C10 counterexample: for the line "he ea eae", the fourth liaison order
(synalepha then sinaeresis) generates sinaeresis vectors from the
six pre-reduction syllables and applies them to the four reduced groups;
the generated vector [0,0,0,1,1,0] forces a merge at the final group and
the successor-position read past the end of the vector raises, so
generate_phonological_groups yields a raised exception (`none`). -/
theorem generate_phonological_groups_oob_counterexample :
    ([0, 0, 0, 1, 1, 0] ∈ generate_liaison_positions
        (get_syllables_word_end (get_words fdEmpty adEmpty
          [⟨"he".toList, true, "VERB", "VERB"⟩,
           ⟨"ea".toList, true, "VERB", "VERB"⟩,
           ⟨"eae".toList, true, "VERB", "VERB"⟩] true))
        LiaisonType.sinaeresis) ∧
    ((get_phonological_groups
        (get_syllables_word_end (get_words fdEmpty adEmpty
          [⟨"he".toList, true, "VERB", "VERB"⟩,
           ⟨"ea".toList, true, "VERB", "VERB"⟩,
           ⟨"eae".toList, true, "VERB", "VERB"⟩] true))
        LiaisonType.synalepha none (some [1, 0, 1, 0, 0, 0])).map
      (fun gs => get_phonological_groups gs LiaisonType.sinaeresis none
        (some [0, 0, 0, 1, 1, 0])) = some none) ∧
    ((generate_phonological_groups fdEmpty adEmpty
        [⟨"he".toList, true, "VERB", "VERB"⟩,
         ⟨"ea".toList, true, "VERB", "VERB"⟩,
         ⟨"eae".toList, true, "VERB", "VERB"⟩]).contains none = true) := by
  refine ⟨by decide, by decide, by decide⟩

theorem line_last_syllable_safety_witness :
    (∀ tok ∈ [(⟨"la".toList, true, "DET", "DET"⟩ : Token)],
      tok.is_alpha = true →
      tok.text ≠ [] ∧ '-' ∉ tok.text ∧ fdEmpty tok.text = none ∧
        adEmpty (pyLowerStr tok.text) = none) ∧
    ((∀ s, (get_syllables_word_end (get_words fdEmpty adEmpty
        [⟨"la".toList, true, "DET", "DET"⟩] true)).getLast? =
        some s → s.has_synalepha = none ∧ s.has_sinaeresis = none) ∧
    (∀ t : LiaisonType,
      get_syllables_word_end (get_words fdEmpty adEmpty
        [⟨"la".toList, true, "DET", "DET"⟩] true) = [] ∨
      ((get_syllables_word_end (get_words fdEmpty adEmpty
          [⟨"la".toList, true, "DET", "DET"⟩] true)).map
          (fun s => pyBoolGetInt (liaisonProp t s))).getLast? = some 0) ∧
    (∀ t : LiaisonType, ∀ v ∈ generate_liaison_positions
        (get_syllables_word_end (get_words fdEmpty adEmpty
          [⟨"la".toList, true, "DET", "DET"⟩] true)) t,
      GoodPositions (get_syllables_word_end (get_words fdEmpty adEmpty
        [⟨"la".toList, true, "DET", "DET"⟩] true)) v) ∧
    (∀ (t : LiaisonType)
        (bf : Option (LiaisonType → SyllableInfo → SyllableInfo → Bool)),
      (get_phonological_groups
        (get_syllables_word_end (get_words fdEmpty adEmpty
          [⟨"la".toList, true, "DET", "DET"⟩] true)) t bf
          none).isSome) ∧
    (∀ (t : LiaisonType)
        (bf : Option (LiaisonType → SyllableInfo → SyllableInfo → Bool)),
      ∀ v ∈ generate_liaison_positions
          (get_syllables_word_end (get_words fdEmpty adEmpty
            [⟨"la".toList, true, "DET", "DET"⟩] true)) t,
        (get_phonological_groups
          (get_syllables_word_end (get_words fdEmpty adEmpty
            [⟨"la".toList, true, "DET", "DET"⟩] true)) t bf
            (some v)).isSome)) :=
  ⟨by decide,
   line_last_syllable_safety fdEmpty adEmpty
     [⟨"la".toList, true, "DET", "DET"⟩] true (by decide)⟩
